import Mathlib

/-! # secure-environment: a shallow embedding of `main.go` and `utils.go`

Go strings are modelled as lists of Unicode code points (`List Char`), byte blobs as
lists of numbers.  The Go standard-library functions the program calls
(`strings.Split`, `strings.Join`, `strings.TrimSpace`, `strings.Replace`,
`regexp.FindStringSubmatch`, `regexp.MatchString`) are modelled by executable
definitions that follow their documented behaviour; the regular expressions of the
program are values of a small regular-expression syntax that is run by a backtracking
matcher with Go's leftmost-first (Perl-like) preference order.  The outside world
(object store, key-management service, child process, signals) enters as explicit
parameters.
-/

namespace SecureEnvironment

/-! ## Strings -/

/-- Go `string`, as a list of code points. -/
abbrev Str := List Char

/-- Go `[]byte` for opaque blobs (the encrypted envelope). -/
abbrev Bytes := List Nat

/-- The single-quote character U+0027. -/
def squote : Char := Char.ofNat 39

/-- The double-quote character U+0022. -/
def dquote : Char := Char.ofNat 34

/-- Go `unicode.IsSpace`: the Latin-1 spaces and the other code points with the
`White_Space` property. -/
def unicodeIsSpace (c : Char) : Bool :=
  let n := c.toNat
  (9 ≤ n && n ≤ 13) || n == 32 || n == 133 || n == 160 || n == 5760 ||
    (8192 ≤ n && n ≤ 8202) || n == 8232 || n == 8233 || n == 8239 || n == 8287 || n == 12288

/-- Go `strings.TrimSpace`: drop leading and trailing white space. -/
def TrimSpace (s : Str) : Str :=
  ((s.dropWhile unicodeIsSpace).reverse.dropWhile unicodeIsSpace).reverse

/-- Go `strings.Split(s, sep)` for a one-character separator (both call sites of the
program split on one character): the pieces between the occurrences of `sep`;
a string without `sep` is its own single piece. -/
def stringsSplit (s : Str) (sep : Char) : List Str :=
  match s with
  | [] => [[]]
  | c :: cs =>
    if c = sep then [] :: stringsSplit cs sep
    else
      match stringsSplit cs sep with
      | [] => [[c]]
      | p :: ps => (c :: p) :: ps

/-- Go `strings.Join(elems, sep)`. -/
def stringsJoin (elems : List Str) (sep : Str) : Str :=
  match elems with
  | [] => []
  | [e] => e
  | e :: es => e ++ sep ++ stringsJoin es sep

/-- Go `strings.Count(s, old)` for a one-character `old`. -/
def stringsCount (s : Str) (old : Char) : Nat :=
  s.count old

/-- Go `strings.Index(s, old)` for a one-character `old` that occurs in `s`
(the length of `s` when it does not occur; `replaceLoop` only asks when it does). -/
def stringsIndex (s : Str) (old : Char) : Nat :=
  match s with
  | [] => 0
  | c :: cs => if c = old then 0 else stringsIndex cs old + 1

/-- The copy loop of Go `strings.Replace`: `n` times, find the next occurrence of `old`
in the unread part, write what precedes it and then `new` to the builder `b`, and skip
`old`; at the end write the unread part. -/
def replaceLoop (old : Char) (new : Str) : Nat → Str → Str → Str
  | 0, unread, b => b ++ unread
  | n + 1, unread, b =>
    let j := stringsIndex unread old
    replaceLoop old new n (unread.drop (j + 1)) (b ++ unread.take j ++ new)

/-- Go `strings.Replace(s, old, new, -1)` for a one-character `old`: count the
occurrences, return `s` itself when there is none, else run the copy loop. -/
def stringsReplace (s : Str) (old : Char) (new : Str) : Str :=
  let m := stringsCount s old
  if m = 0 then s else replaceLoop old new m s []

/-! ## Regular expressions (Go `regexp`, leftmost-first semantics) -/

/-- Submatch registers: the text last captured by each group (`""` when unset, which
is what `FindStringSubmatch` reports for a group that did not take part). -/
abbrev Caps := Nat → Str

/-- Matcher state: the unread input and the capture registers. -/
abbrev MState := Str × Caps

/-- Syntax of the regular expressions used by the program. -/
inductive Regex where
  | empty
  | char (p : Char → Bool)
  | bol
  | eol
  | seq (a b : Regex)
  | alt (a b : Regex)
  | star (a : Regex)
  | group (i : Nat) (a : Regex)

/-- Greedy iteration: first every way of matching the body once more (consuming
input) and iterating on, then stopping here. -/
def starLoop (f : MState → List MState) : Nat → MState → List MState
  | 0, st => [st]
  | fuel + 1, st =>
    ((f st).filter (fun st' => st'.1.length < st.1.length)).flatMap (starLoop f fuel) ++ [st]

/-- Overwrite capture register `i`. -/
def setCap (k : Caps) (i : Nat) (v : Str) : Caps :=
  fun j => if j = i then v else k j

/-- All ways the expression matches a prefix of the unread input, in the preference
order of a backtracking matcher (what Go calls leftmost-first): alternatives left to
right, repetition greedy.  `n` is the length of the whole subject, so that `^` can
recognise the start of the text. -/
def Regex.run (n : Nat) : Regex → MState → List MState
  | .empty, st => [st]
  | .char p, st =>
    match st.1 with
    | [] => []
    | c :: cs => if p c then [(cs, st.2)] else []
  | .bol, st => if st.1.length = n then [st] else []
  | .eol, st => if st.1.isEmpty then [st] else []
  | .seq a b, st => (run n a st).flatMap (run n b)
  | .alt a b, st => run n a st ++ run n b st
  | .star a, st => starLoop (run n a) (st.1.length + 1) st
  | .group i a, st =>
    (run n a st).map
      (fun st' => (st'.1, setCap st'.2 i (st.1.take (st.1.length - st'.1.length))))

/-- Concatenation of a list of expressions. -/
def cat : List Regex → Regex
  | [] => .empty
  | r :: rs => .seq r (cat rs)

/-- The literal character `c`. -/
def ch (c : Char) : Regex := .char (fun x => x == c)

/-- The negated class `[^c]` (it matches a newline too). -/
def notCh (c : Char) : Regex := .char (fun x => x != c)

/-- The wildcard `.`: any character but a newline. -/
def anyc : Regex := .char (fun x => x != '\n')

/-- A literal string. -/
def lit (s : String) : Regex := cat (s.toList.map ch)

/-- Greedy `r+`. -/
def plus (r : Regex) : Regex := .seq r (.star r)

/-- Greedy `r?`. -/
def opt (r : Regex) : Regex := .alt r .empty

/-- The submatch slice reported for a successful match that started at `s` and ended
in state `st`: the matched text, then groups `1..ngroups`. -/
def submatches (ngroups : Nat) (s : Str) (st : MState) : List Str :=
  s.take (s.length - st.1.length) :: (List.range ngroups).map (fun i => st.2 (i + 1))

/-- Try the expression at the start of `s`, then at each later position. -/
def findFrom (re : Regex) (ngroups n : Nat) : Str → List Str
  | [] =>
    match (re.run n ([], fun _ => [])).head? with
    | some st => submatches ngroups [] st
    | none => []
  | c :: cs =>
    match (re.run n (c :: cs, fun _ => [])).head? with
    | some st => submatches ngroups (c :: cs) st
    | none => findFrom re ngroups n cs

/-- Go `(*Regexp).FindStringSubmatch`: the leftmost match and its submatches, the
empty slice (`nil`) when there is no match. -/
def FindStringSubmatch (re : Regex) (ngroups : Nat) (s : Str) : List Str :=
  findFrom re ngroups s.length s

/-- Go `(*Regexp).MatchString`. -/
def MatchString (re : Regex) (s : Str) : Bool :=
  !(FindStringSubmatch re 0 s).isEmpty

/-- The class `[A-Za-z]`. -/
def isAlpha (c : Char) : Bool :=
  ('A' ≤ c && c ≤ 'Z') || ('a' ≤ c && c ≤ 'z')

/-- The class `[0-9A-Za-z_]`. -/
def isWord (c : Char) : Bool :=
  ('0' ≤ c && c ≤ '9') || ('A' ≤ c && c ≤ 'Z') || ('a' ≤ c && c ≤ 'z') || c == '_'

/-! ## main.go, line 18 -/

/-- The expression `^([A-Za-z][0-9A-Za-z_]*)=(.*)`. -/
def envFileLineRegex : Regex :=
  cat [.bol, .group 1 (cat [.char isAlpha, .star (.char isWord)]), ch '=',
       .group 2 (.star anyc)]

/-! ## utils.go -/

/-- The tail `(/?$|/(.*))` shared by the four address expressions; `g` is the number
of the outer group. -/
def keyTail (g : Nat) : Regex :=
  .group g (.alt (cat [opt (ch '/'), .eol]) (cat [ch '/', .group (g + 1) (.star anyc)]))

/-- The expression `^https?://([^.]+).s3.amazonaws.com(/?$|/(.*))`. -/
def regexpS3UrlStyle1 : Regex :=
  cat [.bol, lit "http", opt (ch 's'), lit "://", .group 1 (plus (notCh '.')),
       anyc, lit "s3", anyc, lit "amazonaws", anyc, lit "com", keyTail 2]

/-- The expression `^https?://([^.]+).s3-([^.]+).amazonaws.com(/?$|/(.*))`. -/
def regexpS3UrlStyle2 : Regex :=
  cat [.bol, lit "http", opt (ch 's'), lit "://", .group 1 (plus (notCh '.')),
       anyc, lit "s3-", .group 2 (plus (notCh '.')), anyc, lit "amazonaws", anyc, lit "com",
       keyTail 3]

/-- The expression `^https?://s3.amazonaws.com/([^\/]+)(/?$|/(.*))`. -/
def regexpS3UrlStyle3 : Regex :=
  cat [.bol, lit "http", opt (ch 's'), lit "://", lit "s3", anyc, lit "amazonaws", anyc,
       lit "com/", .group 1 (plus (notCh '/')), keyTail 2]

/-- The expression `^https?://s3-([^.]+).amazonaws.com/([^\/]+)(/?$|/(.*))`. -/
def regexpS3UrlStyle4 : Regex :=
  cat [.bol, lit "http", opt (ch 's'), lit "://", lit "s3-", .group 1 (plus (notCh '.')),
       anyc, lit "amazonaws", anyc, lit "com/", .group 2 (plus (notCh '/')), keyTail 3]

/-- Go `error` values of the program: an error with a message, or the
`*exec.ExitError` of a child that ended with a non-zero status. -/
inductive GoError where
  | errorString (msg : String)
  | exitError (status : Nat)
deriving DecidableEq

/-- Element `i` of a submatch slice. -/
def idx (matches_ : List Str) (i : Nat) : Str :=
  matches_.getD i []

/-- `ParseS3Url`: returns bucket, key, region and the error. -/
def ParseS3Url (url : Str) : Str × Str × Str × Option GoError :=
  let m1 := FindStringSubmatch regexpS3UrlStyle1 3 url
  if m1.length > 0 then (idx m1 1, idx m1 3, [], none)
  else
    let m2 := FindStringSubmatch regexpS3UrlStyle2 4 url
    if m2.length > 0 then (idx m2 1, idx m2 4, idx m2 2, none)
    else
      let m3 := FindStringSubmatch regexpS3UrlStyle3 3 url
      if m3.length > 0 then (idx m3 1, idx m3 3, "us-east-1".toList, none)
      else
        let m4 := FindStringSubmatch regexpS3UrlStyle4 4 url
        if m4.length > 0 then (idx m4 2, idx m4 4, idx m4 1, none)
        else ([], [], [], some (.errorString "not an s3 url"))

/-- The external collaborators of one invocation: whether an AWS session can be
created, what the object store answers for a bucket and key (request and body read
together), whether `NewCipher` can resolve credentials, and what the cipher answers
for a key identifier and an envelope (the plaintext already read as text). -/
structure World where
  s3Svc : Option GoError
  GetObject : Str → Str → Except GoError Bytes
  NewCipher : Option GoError
  Decrypt : Str → Bytes → Except GoError Str

/-- `s3GetObject`. -/
def s3GetObject (w : World) (url : Str) : Except GoError Bytes :=
  match ParseS3Url url with
  | (_, _, _, some err) => .error err
  | (s3Bucket, s3Key, _, none) =>
    match w.s3Svc with
    | some err => .error err
    | none => w.GetObject s3Bucket s3Key

/-- `escapeSingleQuote`: `strings.Replace(s, "'", "'\"'\"'", -1)`. -/
def escapeSingleQuote (s : Str) : Str :=
  stringsReplace s squote [squote, dquote, squote, dquote, squote]

/-- The calls `decryptEnv` makes to its collaborators, in order. -/
inductive Call where
  | s3GetObject (url : Str)
  | NewCipher
  | Decrypt (key : Str) (data : Bytes)
deriving DecidableEq

/-- How a function of the program ends: `return nil`, `return err`, or `os.Exit`. -/
inductive Ret where
  | nil
  | err (e : GoError)
  | exit (code : Nat)
deriving DecidableEq

/-- What `decryptEnv` leaves behind: its return, the environment list behind the
`env` pointer, and the calls it made. -/
structure DecryptResult where
  ret : Ret
  env : List Str
  calls : List Call
deriving DecidableEq

/-- Lines 193-199 of utils.go: the entry appended for a kept line. -/
def envEntry (escape : Bool) (line : Str) : Str :=
  let splitLine := stringsSplit line '='
  let key := idx splitLine 0
  let value := stringsJoin (splitLine.drop 1) ['=']
  let value := if escape then [squote] ++ escapeSingleQuote value ++ [squote] else value
  key ++ ['='] ++ value

/-- The loop of `decryptEnv` over the decrypted lines (lines 179-200 of utils.go). -/
def decryptLoop (escape : Bool) : List Str → List Str → List Str
  | [], env => env
  | line :: rest, env =>
    let line := TrimSpace line
    if line = [] then decryptLoop escape rest env
    else if !MatchString envFileLineRegex line then decryptLoop escape rest env
    else if line.head? = some '#' then decryptLoop escape rest env
    else decryptLoop escape rest (env ++ [envEntry escape line])

/-- `decryptEnv`. -/
def decryptEnv (w : World) (url key : Str) (env : List Str) (escape : Bool) : DecryptResult :=
  if url = [] ∨ key = [] then ⟨.nil, env, []⟩
  else if key = [] then ⟨.exit 1, env, []⟩
  else
    match s3GetObject w url with
    | .error err => ⟨.err err, env, [.s3GetObject url]⟩
    | .ok data =>
      match w.NewCipher with
      | some _ => ⟨.nil, env, [.s3GetObject url, .NewCipher]⟩
      | none =>
        match w.Decrypt key data with
        | .error err => ⟨.err err, env, [.s3GetObject url, .NewCipher, .Decrypt key data]⟩
        | .ok decrypted =>
          ⟨.nil, decryptLoop escape (stringsSplit decrypted '\n') env,
            [.s3GetObject url, .NewCipher, .Decrypt key data]⟩

/-! ## main.go -/

/-- What `fmt.Printf("export %s\n", line)` writes. -/
def exportLine (line : Str) : Str :=
  "export ".toList ++ line ++ ['\n']

/-- `exportEnv`, with `os.Environ()` as `environ`: its return and what it wrote to
standard output, one element per `Printf` call. -/
def exportEnv (w : World) (url key : Str) (environ : List Str) : Ret × List Str :=
  let r := decryptEnv w url key environ true
  match r.ret with
  | .nil => (.nil, r.env.map exportLine)
  | other => (other, [])

/-- `execEnv`, with the outcome of `ecmd.Run()` as `runErr` (`none` for a `nil`
error). -/
def execEnv (w : World) (url key : Str) (environ : List Str) (runErr : Option GoError) : Ret :=
  let r := decryptEnv w url key environ false
  match r.ret with
  | .nil =>
    match runErr with
    | some err =>
      if (some err : Option GoError) ≠ none then .err err
      else
        match err with
        | .exitError status => .exit status
        | .errorString _ => .nil
    | none => .nil
  | other => other

/-! ### The signal listener of `execEnv` (lines 175-187) -/

/-- The three signals passed to `signal.Notify`. -/
inductive Signal where
  | SIGTERM
  | SIGINT
  | SIGKILL
deriving DecidableEq

/-- State of the supervisor from line 184 on: whether the supervisor process is still
alive, the buffered channel `sigChan` (capacity 1), whether the listener goroutine has
finished, whether `ecmd.Process` is set, and the signals sent to the child so far. -/
structure Supervisor where
  alive : Bool
  sigChan : List Signal
  listenerDone : Bool
  processSet : Bool
  forwarded : List Signal
deriving DecidableEq

/-- A signal arrives for the supervisor process.  SIGKILL cannot be caught, whatever was
passed to `signal.Notify`: the process is killed and nothing is relayed.  SIGTERM and
SIGINT are relayed to `sigChan` without blocking, and dropped when the buffer is full. -/
def notify (st : Supervisor) (sig : Signal) : Supervisor :=
  match sig with
  | .SIGKILL => { st with alive := false }
  | _ => if st.sigChan.length < 1 then { st with sigChan := st.sigChan ++ [sig] } else st

/-- One scheduling of the listener goroutine: it blocks on an empty channel, otherwise
it receives one signal, sends it to the child when `ecmd.Process != nil`, and ends. -/
def listenerStep (st : Supervisor) : Supervisor :=
  if st.listenerDone then st
  else
    match st.sigChan with
    | [] => st
    | sig :: rest =>
      { st with
        sigChan := rest
        listenerDone := true
        forwarded := if st.processSet then st.forwarded ++ [sig] else st.forwarded }

/-- What can happen once the listener is installed: `ecmd.Run()` starts the child and
sets `ecmd.Process`, a signal arrives for the supervisor, or the listener goroutine is
scheduled. -/
inductive Event where
  | start
  | deliver (sig : Signal)
  | listener
deriving DecidableEq

/-- The effect of one event; a killed supervisor does nothing any more. -/
def stepEvent (st : Supervisor) (e : Event) : Supervisor :=
  if st.alive then
    match e with
    | .start => { st with processSet := true }
    | .deliver sig => notify st sig
    | .listener => listenerStep st
  else st

/-- The effect of a sequence of events. -/
def runEvents (st : Supervisor) (evs : List Event) : Supervisor :=
  evs.foldl stepEvent st

/-- The signals that arrive in a sequence of events, in order. -/
def delivered : List Event → List Signal
  | [] => []
  | .deliver sig :: evs => sig :: delivered evs
  | .start :: evs => delivered evs
  | .listener :: evs => delivered evs

/-- The supervisor after lines 176-184, before `ecmd.Run()`: alive, channel empty,
listener waiting, `ecmd.Process` not set, nothing forwarded. -/
def installed : Supervisor :=
  { alive := true, sigChan := [], listenerDone := false, processSet := false, forwarded := [] }

/-- The supervisor once `ecmd.Run()` has started the child, no signal having arrived
before. -/
def running : Supervisor :=
  stepEvent installed .start


/-! ## Auxiliary definitions for the proofs -/

/-- The outcomes of a greedy repetition of a character class on input `s`: longest
run first, then each shorter one. -/
def greedyOptions (p : Char → Bool) (k : Caps) : Str → List MState
  | [] => [([], k)]
  | c :: cs => if p c then greedyOptions p k cs ++ [(c :: cs, k)] else [(c :: cs, k)]

/-- The states reached by giving back characters of `x` in front of `rest`, fewest
first. -/
def backOptions (k : Caps) (rest : Str) : Str → List MState
  | [] => []
  | c :: cs => backOptions k rest cs ++ [(c :: cs ++ rest, k)]

/-- The capture groups that occur in an expression. -/
def groups : Regex → List Nat
  | .empty => []
  | .char _ => []
  | .bol => []
  | .eol => []
  | .seq a b => groups a ++ groups b
  | .alt a b => groups a ++ groups b
  | .star a => groups a
  | .group i a => i :: groups a

/-- The pattern of the specification for a kept line,
`^[A-Za-z][0-9A-Za-z_]*=.*$`. -/
def specLineRegex : Regex :=
  cat [.bol, .char isAlpha, .star (.char isWord), ch '=', .star anyc, .eol]

/-- A letter, then word characters, then `=`. -/
def lineShape : Str → Bool
  | [] => false
  | c :: cs => isAlpha c && (cs.dropWhile isWord).head? == some '='

/-- A world in which the fetch, the cipher construction and the decryption succeed and
the plaintext is `text`. -/
def plainWorld (text : Str) : World :=
  { s3Svc := none
    GetObject := fun _ _ => .ok [1, 2, 3]
    NewCipher := none
    Decrypt := fun _ _ => .ok text }

/-- A world in which the object is fetched but `NewCipher` fails (no credentials). -/
def noCredentialsWorld : World :=
  { s3Svc := none
    GetObject := fun _ _ => .ok [1, 2, 3]
    NewCipher := some (.errorString "NoCredentialProviders: no valid providers in chain")
    Decrypt := fun _ _ => .ok [] }

/-- A well-formed object address used in examples. -/
def sampleUrl : Str := "https://bucket.s3.amazonaws.com/env".toList

/-- A key identifier used in examples. -/
def sampleKey : Str := "alias/secure-environment".toList

/-- The entries the specification expects from a plaintext: one per line whose trimmed
form matches the pattern, in line order. -/
def specEntries (escape : Bool) (text : Str) : List Str :=
  (((stringsSplit text '\n').map TrimSpace).filter (fun l => MatchString specLineRegex l)).map
    (envEntry escape)

/-- The virtual-hosted address without region, `<bucket>.s3.amazonaws.com/<key>`. -/
def dialect1 (scheme bucket key : Str) : Str :=
  scheme ++ "://".toList ++ bucket ++ ".s3.amazonaws.com/".toList ++ key

/-- The virtual-hosted address with region, `<bucket>.s3-<region>.amazonaws.com/<key>`. -/
def dialect2 (scheme bucket region key : Str) : Str :=
  scheme ++ "://".toList ++ bucket ++ ".s3-".toList ++ region ++ ".amazonaws.com/".toList ++ key

/-- The path-style address without region, `s3.amazonaws.com/<bucket>/<key>`. -/
def dialect3 (scheme bucket key : Str) : Str :=
  scheme ++ "://".toList ++ "s3.amazonaws.com/".toList ++ bucket ++ "/".toList ++ key

/-- The path-style address with region, `s3-<region>.amazonaws.com/<bucket>/<key>`. -/
def dialect4 (scheme bucket region key : Str) : Str :=
  scheme ++ "://".toList ++ "s3-".toList ++ region ++ ".amazonaws.com/".toList ++ bucket ++
    "/".toList ++ key

/-! ## `strings.Split`, `strings.Join`, `strings.Replace` -/

theorem stringsSplit_ne_nil (s : Str) (sep : Char) : stringsSplit s sep ≠ [] := by
  cases s with
  | nil => simp [stringsSplit]
  | cons c cs =>
    simp only [stringsSplit]
    split
    · simp
    · split <;> simp

/-- The first piece is what precedes the first separator, the other pieces are the
split of what follows it. -/
theorem stringsSplit_eq (s : Str) (sep : Char) :
    stringsSplit s sep =
      s.takeWhile (fun c => c != sep) ::
        (match s.dropWhile (fun c => c != sep) with
          | [] => []
          | _ :: r => stringsSplit r sep) := by
  induction s with
  | nil => simp [stringsSplit]
  | cons c cs ih =>
    by_cases h : c = sep
    · subst h
      simp [stringsSplit, List.takeWhile, List.dropWhile]
    · have hb : (c != sep) = true := by simpa using h
      simp only [stringsSplit, if_neg h, List.takeWhile, List.dropWhile, hb]
      rw [ih]

theorem stringsJoin_cons_cons (e e' : Str) (es : List Str) (sep : Str) :
    stringsJoin (e :: e' :: es) sep = e ++ sep ++ stringsJoin (e' :: es) sep := by
  simp [stringsJoin]

/-- Joining the pieces with the separator gives the string back. -/
theorem stringsJoin_stringsSplit (s : Str) (sep : Char) :
    stringsJoin (stringsSplit s sep) [sep] = s := by
  induction s with
  | nil => simp [stringsSplit, stringsJoin]
  | cons c cs ih =>
    by_cases h : c = sep
    · subst h
      simp only [stringsSplit, if_true]
      cases hs : stringsSplit cs c with
      | nil => exact absurd hs (stringsSplit_ne_nil cs c)
      | cons p ps =>
        rw [stringsJoin_cons_cons, ← hs, ih]
        simp
    · simp only [stringsSplit, if_neg h]
      cases hs : stringsSplit cs sep with
      | nil => exact absurd hs (stringsSplit_ne_nil cs sep)
      | cons p ps =>
        rw [hs] at ih
        cases ps with
        | nil =>
          simp only [stringsJoin] at ih ⊢
          rw [ih]
        | cons q qs =>
          rw [stringsJoin_cons_cons] at ih ⊢
          simp only [List.cons_append, ← ih]

/-- No piece of a split contains the separator. -/
theorem not_mem_of_mem_stringsSplit (s : Str) (sep : Char) :
    ∀ p ∈ stringsSplit s sep, sep ∉ p := by
  induction s with
  | nil => simp [stringsSplit]
  | cons c cs ih =>
    intro p hp
    by_cases h : c = sep
    · subst h
      simp only [stringsSplit, if_true, List.mem_cons] at hp
      rcases hp with rfl | hp
      · simp
      · exact ih p hp
    · simp only [stringsSplit, if_neg h] at hp
      cases hs : stringsSplit cs sep with
      | nil => exact absurd hs (stringsSplit_ne_nil cs sep)
      | cons q qs =>
        rw [hs] at hp ih
        simp only [List.mem_cons] at hp
        rcases hp with rfl | hp
        · have := ih q (by simp)
          simp only [List.mem_cons, not_or]
          exact ⟨fun e => h e.symm, this⟩
        · exact ih p (by simp [hp])

/-- Around the first occurrence of `old`: nothing before it is replaced, and the count
of what follows is one less. -/
theorem stringsIndex_spec (old : Char) (new : Str) (s : Str) (h : 0 < stringsCount s old) :
    s.flatMap (fun c => if c = old then new else [c]) =
      s.take (stringsIndex s old) ++ new ++
        (s.drop (stringsIndex s old + 1)).flatMap (fun c => if c = old then new else [c]) ∧
    stringsCount (s.drop (stringsIndex s old + 1)) old + 1 = stringsCount s old := by
  induction s with
  | nil => simp [stringsCount] at h
  | cons c cs ih =>
    by_cases hc : c = old
    · subst hc
      simp [stringsIndex, stringsCount]
    · have hc' : ¬ old = c := fun e => hc e.symm
      have h' : 0 < stringsCount cs old := by
        simpa [stringsCount, List.count_cons, hc] using h
      obtain ⟨ih1, ih2⟩ := ih h'
      constructor
      · simp only [stringsIndex, if_neg hc, List.flatMap_cons, List.take_succ_cons,
          List.drop_succ_cons]
        rw [ih1]
        simp
      · simp only [stringsIndex, if_neg hc, List.drop_succ_cons]
        simpa [stringsCount, List.count_cons, hc] using ih2

theorem replaceLoop_eq (old : Char) (new : Str) :
    ∀ (n : Nat) (unread b : Str), stringsCount unread old = n →
      replaceLoop old new n unread b =
        b ++ unread.flatMap (fun c => if c = old then new else [c]) := by
  intro n
  induction n with
  | zero =>
    intro unread b h
    have hno : ∀ c ∈ unread, ¬ c = old := by
      intro c hc e
      subst e
      have : 0 < List.count c unread := List.count_pos_iff.mpr hc
      simp only [stringsCount] at h
      omega
    have : unread.flatMap (fun c => if c = old then new else [c]) = unread := by
      clear h
      induction unread with
      | nil => rfl
      | cons c cs ih =>
        have h1 : ¬ c = old := hno c (by simp)
        simp only [List.flatMap_cons, if_neg h1]
        rw [ih (fun d hd => hno d (by simp [hd]))]
        rfl
    simp [replaceLoop, this]
  | succ n ih =>
    intro unread b h
    have hpos : 0 < stringsCount unread old := by omega
    obtain ⟨h1, h2⟩ := stringsIndex_spec old new unread hpos
    simp only [replaceLoop]
    rw [ih _ _ (by omega), h1]
    simp

/-- `strings.Replace` with a one-character `old` substitutes character by character. -/
theorem stringsReplace_eq (s : Str) (old : Char) (new : Str) :
    stringsReplace s old new = s.flatMap (fun c => if c = old then new else [c]) := by
  unfold stringsReplace
  simp only
  split
  · rename_i h
    have := replaceLoop_eq old new 0 s [] h
    simpa [replaceLoop] using this
  · rw [replaceLoop_eq old new _ s [] rfl]
    simp

/-! ## Claims about the parser of `decryptEnv` -/

/-- C3: with escaping enabled the value is rendered as a single quote, the value with
every single quote replaced by the five characters `'"'"'` and every other character
kept in place, and a closing single quote; `it's` is rendered as `'it'"'"'s'`. -/
theorem escaped_value_rendering :
    (∀ line : Str,
      envEntry true line =
        idx (stringsSplit line '=') 0 ++ ['='] ++
          ([squote] ++
            (stringsJoin ((stringsSplit line '=').drop 1) ['=']).flatMap
              (fun c => if c = squote then [squote, dquote, squote, dquote, squote] else [c]) ++
            [squote])) ∧
    (∀ value : Str,
      [squote] ++ escapeSingleQuote value ++ [squote] =
        [squote] ++
          value.flatMap
            (fun c => if c = squote then [squote, dquote, squote, dquote, squote] else [c]) ++
          [squote]) ∧
    [squote] ++ escapeSingleQuote "it's".toList ++ [squote] = "'it'\"'\"'s'".toList ∧
    envEntry true "A=it's".toList = "A='it'\"'\"'s'".toList := by
  refine ⟨?_, ?_, ?_, ?_⟩
  · intro line
    simp [envEntry, escapeSingleQuote, stringsReplace_eq]
  · intro value
    simp [escapeSingleQuote, stringsReplace_eq]
  · decide
  · decide

/-! ## The matcher -/

@[simp] theorem run_empty (n : Nat) (st : MState) : Regex.run n .empty st = [st] := rfl

@[simp] theorem run_char_nil (n : Nat) (p : Char → Bool) (k : Caps) :
    Regex.run n (.char p) ([], k) = [] := rfl

@[simp] theorem run_char_cons (n : Nat) (p : Char → Bool) (c : Char) (cs : Str) (k : Caps) :
    Regex.run n (.char p) (c :: cs, k) = if p c then [(cs, k)] else [] := rfl

@[simp] theorem run_bol (n : Nat) (s : Str) (k : Caps) :
    Regex.run n .bol (s, k) = if s.length = n then [(s, k)] else [] := rfl

@[simp] theorem run_eol_nil (n : Nat) (k : Caps) : Regex.run n .eol ([], k) = [([], k)] := rfl

@[simp] theorem run_eol_cons (n : Nat) (c : Char) (cs : Str) (k : Caps) :
    Regex.run n .eol (c :: cs, k) = [] := rfl

@[simp] theorem run_seq (n : Nat) (a b : Regex) (st : MState) :
    Regex.run n (.seq a b) st = (Regex.run n a st).flatMap (Regex.run n b) := rfl

@[simp] theorem run_alt (n : Nat) (a b : Regex) (st : MState) :
    Regex.run n (.alt a b) st = Regex.run n a st ++ Regex.run n b st := rfl

theorem run_star (n : Nat) (a : Regex) (st : MState) :
    Regex.run n (.star a) st = starLoop (Regex.run n a) (st.1.length + 1) st := rfl

@[simp] theorem run_group (n i : Nat) (a : Regex) (st : MState) :
    Regex.run n (.group i a) st =
      (Regex.run n a st).map
        (fun st' => (st'.1, setCap st'.2 i (st.1.take (st.1.length - st'.1.length)))) := rfl

@[simp] theorem run_cat_nil (n : Nat) (st : MState) : Regex.run n (cat []) st = [st] := rfl

@[simp] theorem run_cat_cons (n : Nat) (r : Regex) (rs : List Regex) (st : MState) :
    Regex.run n (cat (r :: rs)) st = (Regex.run n r st).flatMap (Regex.run n (cat rs)) := rfl

/-- A repetition of a character class gives the greedy options. -/
theorem starLoop_char (n : Nat) (p : Char → Bool) (k : Caps) :
    ∀ (fuel : Nat) (s : Str), s.length < fuel →
      starLoop (Regex.run n (.char p)) fuel (s, k) = greedyOptions p k s := by
  intro fuel
  induction fuel with
  | zero => intro s h; omega
  | succ fuel ih =>
    intro s h
    cases s with
    | nil => simp [starLoop, greedyOptions]
    | cons c cs =>
      by_cases hp : p c = true
      · have h' : cs.length < fuel := by simpa using h
        simp [starLoop, greedyOptions, hp, ih cs h']
      · simp [starLoop, greedyOptions, hp]

@[simp] theorem run_star_char (n : Nat) (p : Char → Bool) (st : MState) :
    Regex.run n (.star (.char p)) st = greedyOptions p st.2 st.1 := by
  rw [run_star]
  exact starLoop_char n p st.2 _ st.1 (by simp)

theorem greedyOptions_nil (p : Char → Bool) (k : Caps) :
    greedyOptions p k [] = [([], k)] := rfl

theorem greedyOptions_cons (p : Char → Bool) (k : Caps) (c : Char) (cs : Str) :
    greedyOptions p k (c :: cs) =
      if p c then greedyOptions p k cs ++ [(c :: cs, k)] else [(c :: cs, k)] := rfl

/-- On a run of class characters the greedy options are those of what follows, then
the states that give characters back. -/
theorem greedyOptions_append (p : Char → Bool) (k : Caps) (x rest : Str)
    (hx : ∀ c ∈ x, p c = true) :
    greedyOptions p k (x ++ rest) = greedyOptions p k rest ++ backOptions k rest x := by
  induction x with
  | nil => simp [backOptions]
  | cons c cs ih =>
    have hc : p c = true := hx c (by simp)
    have := ih (fun d hd => hx d (by simp [hd]))
    simp [backOptions, hc, this, greedyOptions_cons]

theorem mem_backOptions (k : Caps) (rest x : Str) (st : MState) (h : st ∈ backOptions k rest x) :
    ∃ t, t ≠ [] ∧ t <:+ x ∧ st = (t ++ rest, k) := by
  induction x with
  | nil => simp [backOptions] at h
  | cons c cs ih =>
    simp only [backOptions, List.mem_append, List.mem_singleton] at h
    rcases h with h | h
    · obtain ⟨t, h1, h2, h3⟩ := ih h
      exact ⟨t, h1, h2.trans (List.suffix_cons c cs), h3⟩
    · exact ⟨c :: cs, by simp, List.suffix_refl _, by simpa using h⟩

/-- Later start positions fail on `^`. -/
theorem findFrom_bol_of_lt (rs : List Regex) (g n : Nat) :
    ∀ s : Str, s.length < n → findFrom (cat (.bol :: rs)) g n s = [] := by
  intro s
  induction s with
  | nil =>
    intro h
    have : ¬ (0 = n) := by simp at h; omega
    simp [findFrom, this]
  | cons c cs ih =>
    intro h
    have h1 : ¬ (cs.length + 1 = n) := by simp at h; omega
    have h2 : cs.length < n := by simp at h; omega
    simp [findFrom, h1, ih h2]

/-- An expression that starts with `^` is only tried at the start of the subject. -/
theorem FindStringSubmatch_anchored (rs : List Regex) (g : Nat) (s : Str) :
    FindStringSubmatch (cat (.bol :: rs)) g s =
      match (Regex.run s.length (cat rs) (s, fun _ => [])).head? with
      | some st => submatches g s st
      | none => [] := by
  unfold FindStringSubmatch
  cases s with
  | nil => simp [findFrom]
  | cons c cs =>
    simp only [findFrom, run_cat_cons, run_bol, if_true, List.flatMap_cons, List.flatMap_nil,
      List.append_nil]
    cases h : (Regex.run (c :: cs).length (cat rs) (c :: cs, fun _ => [])).head? with
    | some st => rfl
    | none => exact findFrom_bol_of_lt rs g _ cs (by simp)

theorem take_sub_length (x y : Str) : (x ++ y).take ((x ++ y).length - y.length) = x := by
  simp

theorem mem_cat_cons (n : Nat) (r : Regex) (rs : List Regex) (st st' : MState) :
    st' ∈ Regex.run n (cat (r :: rs)) st ↔
      ∃ m, m ∈ Regex.run n r st ∧ st' ∈ Regex.run n (cat rs) m := by
  simp [List.mem_flatMap]

theorem mem_cat_nil (n : Nat) (st st' : MState) :
    st' ∈ Regex.run n (cat []) st ↔ st' = st := by
  simp

theorem mem_run_char (n : Nat) (p : Char → Bool) (st st' : MState) :
    st' ∈ Regex.run n (.char p) st ↔ ∃ c, p c = true ∧ st.1 = c :: st'.1 ∧ st'.2 = st.2 := by
  obtain ⟨s, k⟩ := st
  obtain ⟨s', k'⟩ := st'
  cases s with
  | nil => simp
  | cons c cs =>
    by_cases hp : p c = true
    · simp only [run_char_cons, hp, if_true, List.mem_singleton, Prod.mk.injEq, List.cons.injEq]
      constructor
      · rintro ⟨rfl, rfl⟩
        exact ⟨c, hp, ⟨rfl, rfl⟩, rfl⟩
      · rintro ⟨d, -, ⟨-, h⟩, h'⟩
        exact ⟨h.symm, h'⟩
    · simp only [run_char_cons, hp, List.cons.injEq]
      constructor
      · intro h
        simp at h
      · rintro ⟨d, hd, ⟨rfl, -⟩, -⟩
        exact absurd hd hp

theorem mem_run_group (n i : Nat) (a : Regex) (st st' : MState) :
    st' ∈ Regex.run n (.group i a) st ↔
      ∃ m, m ∈ Regex.run n a st ∧
        st' = (m.1, setCap m.2 i (st.1.take (st.1.length - m.1.length))) := by
  simp only [run_group, List.mem_map]
  constructor
  · rintro ⟨m, hm, rfl⟩
    exact ⟨m, hm, rfl⟩
  · rintro ⟨m, hm, rfl⟩
    exact ⟨m, hm, rfl⟩

/-- The greedy options are exactly the ways of reading a run of class characters. -/
theorem mem_greedyOptions (p : Char → Bool) (k : Caps) (s : Str) (st : MState) :
    st ∈ greedyOptions p k s ↔ st.2 = k ∧ ∃ pre, pre ++ st.1 = s ∧ ∀ c ∈ pre, p c = true := by
  induction s with
  | nil =>
    obtain ⟨r, k'⟩ := st
    simp only [greedyOptions_nil, List.mem_singleton, Prod.mk.injEq, List.append_eq_nil]
    constructor
    · rintro ⟨rfl, rfl⟩
      exact ⟨rfl, [], ⟨rfl, rfl⟩, by simp⟩
    · rintro ⟨rfl, pre, ⟨-, h⟩, -⟩
      exact ⟨h, rfl⟩
  | cons c cs ih =>
    obtain ⟨r, k'⟩ := st
    by_cases hp : p c = true
    · simp only [greedyOptions_cons, hp, if_true, List.mem_append, List.mem_singleton, ih,
        Prod.mk.injEq]
      constructor
      · rintro (⟨rfl, pre, h1, h2⟩ | ⟨rfl, rfl⟩)
        · refine ⟨rfl, c :: pre, by simp [h1], ?_⟩
          intro d hd
          rcases List.mem_cons.mp hd with rfl | hd
          · exact hp
          · exact h2 d hd
        · exact ⟨rfl, [], rfl, by simp⟩
      · rintro ⟨rfl, pre, h1, h2⟩
        cases pre with
        | nil => right; exact ⟨by simpa using h1, rfl⟩
        | cons d pre =>
          left
          simp only [List.cons_append, List.cons.injEq] at h1
          exact ⟨rfl, pre, h1.2, fun e he => h2 e (by simp [he])⟩
    · have hp' : p c = false := by simpa using hp
      rw [greedyOptions_cons, hp']
      simp only [Bool.false_eq_true, if_false, List.mem_singleton, Prod.mk.injEq]
      constructor
      · rintro ⟨rfl, rfl⟩
        exact ⟨rfl, [], rfl, by simp⟩
      · rintro ⟨rfl, pre, h1, h2⟩
        cases pre with
        | nil => exact ⟨by simpa using h1, rfl⟩
        | cons d pre =>
          simp only [List.cons_append, List.cons.injEq] at h1
          have := h2 d (by simp)
          rw [h1.1] at this
          exact absurd this hp

theorem matchString_anchored (rs : List Regex) (s : Str) :
    MatchString (cat (.bol :: rs)) s = true ↔
      ∃ st, st ∈ Regex.run s.length (cat rs) (s, fun _ => []) := by
  unfold MatchString
  rw [FindStringSubmatch_anchored]
  cases h : Regex.run s.length (cat rs) (s, fun _ => []) with
  | nil => simp
  | cons a l => simp [submatches]

theorem isWord_eq_sign : isWord '=' = false := by decide

/-- The shape of a kept line, spelled out. -/
theorem lineShape_iff (line : Str) :
    lineShape line = true ↔
      ∃ c pre rest, line = c :: (pre ++ '=' :: rest) ∧ isAlpha c = true ∧
        ∀ x ∈ pre, isWord x = true := by
  cases line with
  | nil => simp [lineShape]
  | cons c cs =>
    simp only [lineShape, Bool.and_eq_true, beq_iff_eq, List.cons.injEq]
    constructor
    · rintro ⟨h1, h2⟩
      refine ⟨c, cs.takeWhile isWord, (cs.dropWhile isWord).tail, ⟨rfl, ?_⟩, h1, ?_⟩
      · have h3 := List.takeWhile_append_dropWhile isWord cs
        cases hd : cs.dropWhile isWord with
        | nil => simp [hd] at h2
        | cons d ds =>
          rw [hd] at h2 h3
          simp only [List.head?_cons, Option.some.injEq] at h2
          subst h2
          simpa using h3.symm
      · intro x hx
        exact List.mem_takeWhile_imp hx
    · rintro ⟨c', pre, rest, ⟨rfl, rfl⟩, h1, h2⟩
      refine ⟨h1, ?_⟩
      have : (pre ++ '=' :: rest).dropWhile isWord = '=' :: rest := by
        clear h1
        induction pre with
        | nil => simp [List.dropWhile, isWord_eq_sign]
        | cons d ds ih =>
          have hd : isWord d = true := h2 d (by simp)
          simp only [List.cons_append, List.dropWhile, hd]
          exact ih (fun x hx => h2 x (by simp [hx]))
      simp [this]

theorem mem_run_star_char (n : Nat) (p : Char → Bool) (st st' : MState) :
    st' ∈ Regex.run n (.star (.char p)) st ↔
      st'.2 = st.2 ∧ ∃ pre, pre ++ st'.1 = st.1 ∧ ∀ c ∈ pre, p c = true := by
  rw [run_star_char, mem_greedyOptions]

/-- The program's expression accepts exactly the lines of that shape. -/
theorem matchString_envFileLineRegex (line : Str) :
    MatchString envFileLineRegex line = lineShape line := by
  rw [Bool.eq_iff_iff, lineShape_iff]
  unfold envFileLineRegex
  rw [matchString_anchored]
  constructor
  · rintro ⟨st, hst⟩
    rw [mem_cat_cons] at hst
    obtain ⟨m1, h1, hst⟩ := hst
    rw [mem_cat_cons] at hst
    obtain ⟨m2, h2, -⟩ := hst
    rw [mem_run_group] at h1
    obtain ⟨m0, h0, rfl⟩ := h1
    rw [mem_cat_cons] at h0
    obtain ⟨ma, ha, h0⟩ := h0
    rw [mem_cat_cons] at h0
    obtain ⟨mb, hb, h0⟩ := h0
    rw [mem_cat_nil] at h0
    subst h0
    rw [mem_run_char] at ha
    obtain ⟨c, hc, hline, -⟩ := ha
    rw [mem_run_star_char] at hb
    obtain ⟨-, pre, hpre, hw⟩ := hb
    rw [ch, mem_run_char] at h2
    obtain ⟨d, hd, hm, -⟩ := h2
    have hd' : d = '=' := by simpa using hd
    subst hd'
    simp only at hline hm
    exact ⟨c, pre, m2.1, by rw [hline, ← hpre, hm], hc, hw⟩
  · rintro ⟨c, pre, rest, rfl, ha, hw⟩
    refine ⟨(rest, setCap (setCap (fun _ => []) 1 (c :: pre)) 2 []), ?_⟩
    rw [mem_cat_cons]
    refine ⟨('=' :: rest, setCap (fun _ => []) 1 (c :: pre)), ?_, ?_⟩
    · rw [mem_run_group]
      refine ⟨('=' :: rest, fun _ => []), ?_, ?_⟩
      · rw [mem_cat_cons]
        refine ⟨(pre ++ '=' :: rest, fun _ => []), (mem_run_char _ _ _ _).2 ⟨c, ha, rfl, rfl⟩, ?_⟩
        rw [mem_cat_cons]
        exact ⟨('=' :: rest, fun _ => []), (mem_run_star_char _ _ _ _).2 ⟨rfl, pre, rfl, hw⟩,
          (mem_cat_nil _ _ _).2 rfl⟩
      · have := take_sub_length (c :: pre) ('=' :: rest)
        simp only [List.cons_append] at this
        simp only [this]
    · rw [mem_cat_cons]
      refine ⟨(rest, setCap (fun _ => []) 1 (c :: pre)),
        (mem_run_char _ _ _ _).2 ⟨'=', by simp, rfl, rfl⟩, ?_⟩
      rw [mem_cat_cons]
      refine ⟨(rest, setCap (setCap (fun _ => []) 1 (c :: pre)) 2 []), ?_, (mem_cat_nil _ _ _).2 rfl⟩
      rw [mem_run_group]
      exact ⟨(rest, setCap (fun _ => []) 1 (c :: pre)),
        (mem_run_star_char _ _ _ _).2 ⟨rfl, [], rfl, by simp⟩, by simp⟩

/-- The pattern of the specification accepts the lines of that shape that have no
newline after the `=`. -/
theorem matchString_specLineRegex (line : Str) (hn : '\n' ∉ line) :
    MatchString specLineRegex line = lineShape line := by
  rw [Bool.eq_iff_iff, lineShape_iff]
  unfold specLineRegex
  rw [matchString_anchored]
  constructor
  · rintro ⟨st, hst⟩
    rw [mem_cat_cons] at hst
    obtain ⟨ma, ha, hst⟩ := hst
    rw [mem_cat_cons] at hst
    obtain ⟨mb, hb, hst⟩ := hst
    rw [mem_cat_cons] at hst
    obtain ⟨m2, h2, -⟩ := hst
    rw [mem_run_char] at ha
    obtain ⟨c, hc, hline, -⟩ := ha
    rw [mem_run_star_char] at hb
    obtain ⟨-, pre, hpre, hw⟩ := hb
    rw [ch, mem_run_char] at h2
    obtain ⟨d, hd, hm, -⟩ := h2
    have hd' : d = '=' := by simpa using hd
    subst hd'
    simp only at hline hm
    exact ⟨c, pre, m2.1, by rw [hline, ← hpre, hm], hc, hw⟩
  · rintro ⟨c, pre, rest, rfl, ha, hw⟩
    refine ⟨([], fun _ => []), ?_⟩
    rw [mem_cat_cons]
    refine ⟨(pre ++ '=' :: rest, fun _ => []), (mem_run_char _ _ _ _).2 ⟨c, ha, rfl, rfl⟩, ?_⟩
    rw [mem_cat_cons]
    refine ⟨('=' :: rest, fun _ => []), (mem_run_star_char _ _ _ _).2 ⟨rfl, pre, rfl, hw⟩, ?_⟩
    rw [mem_cat_cons]
    refine ⟨(rest, fun _ => []), (mem_run_char _ _ _ _).2 ⟨'=', by simp, rfl, rfl⟩, ?_⟩
    rw [mem_cat_cons]
    refine ⟨([], fun _ => []), ?_, ?_⟩
    · rw [anyc, mem_run_star_char]
      refine ⟨rfl, rest, by simp, ?_⟩
      intro x hx
      have : x ≠ '\n' := by
        rintro rfl
        exact hn (by simp [hx])
      simpa using this
    · simp

/-! ## The loop of `decryptEnv` -/

theorem mem_of_mem_TrimSpace (s : Str) (c : Char) (h : c ∈ TrimSpace s) : c ∈ s := by
  unfold TrimSpace at h
  rw [List.mem_reverse] at h
  have h1 := (List.dropWhile_suffix unicodeIsSpace).subset h
  rw [List.mem_reverse] at h1
  exact (List.dropWhile_suffix unicodeIsSpace).subset h1

theorem lineShape_ne_nil (line : Str) (h : lineShape line = true) : line ≠ [] := by
  rintro rfl
  simp [lineShape] at h

theorem lineShape_head (line : Str) (h : lineShape line = true) : line.head? ≠ some '#' := by
  cases line with
  | nil => simp
  | cons c cs =>
    simp only [lineShape, Bool.and_eq_true] at h
    simp only [List.head?_cons, ne_eq, Option.some.injEq]
    rintro rfl
    exact absurd h.1 (by decide)

/-- One turn of the loop: a raw line is kept exactly when its trimmed form has the
shape of an assignment. -/
theorem decryptLoop_cons (escape : Bool) (raw : Str) (rest env : List Str) :
    decryptLoop escape (raw :: rest) env =
      if lineShape (TrimSpace raw) then
        decryptLoop escape rest (env ++ [envEntry escape (TrimSpace raw)])
      else decryptLoop escape rest env := by
  simp only [decryptLoop, matchString_envFileLineRegex]
  by_cases h : lineShape (TrimSpace raw) = true
  · simp [h, lineShape_ne_nil _ h, lineShape_head _ h]
  · simp [h]

/-- The loop appends the entries of the kept lines, in order. -/
theorem decryptLoop_eq (escape : Bool) :
    ∀ (lines env : List Str), (∀ l ∈ lines, '\n' ∉ l) →
      decryptLoop escape lines env =
        env ++ ((lines.map TrimSpace).filter (fun l => MatchString specLineRegex l)).map
          (envEntry escape) := by
  intro lines
  induction lines with
  | nil => intro env _; simp [decryptLoop]
  | cons raw rest ih =>
    intro env hn
    have hraw : '\n' ∉ TrimSpace raw := fun h => hn raw (by simp) (mem_of_mem_TrimSpace _ _ h)
    have hrest : ∀ l ∈ rest, '\n' ∉ l := fun l hl => hn l (by simp [hl])
    rw [decryptLoop_cons]
    simp only [List.map_cons, List.filter_cons, matchString_specLineRegex _ hraw]
    by_cases h : lineShape (TrimSpace raw) = true
    · simp [h, ih _ hrest]
    · simp [h, ih _ hrest]

theorem decryptEnv_success (w : World) (url key : Str) (env : List Str) (escape : Bool)
    (data : Bytes) (text : Str) (hurl : url ≠ []) (hkey : key ≠ [])
    (hfetch : s3GetObject w url = .ok data) (hcipher : w.NewCipher = none)
    (hdec : w.Decrypt key data = .ok text) :
    decryptEnv w url key env escape =
      ⟨.nil, env ++ specEntries escape text,
        [.s3GetObject url, .NewCipher, .Decrypt key data]⟩ := by
  unfold decryptEnv
  simp only [hurl, hkey, or_self, if_false, hfetch, hcipher, hdec, specEntries]
  rw [decryptLoop_eq escape _ env (not_mem_of_mem_stringsSplit text '\n')]

theorem specLineRegex_rejects_comment (l : Str) :
    MatchString specLineRegex ('#' :: l) = false := by
  rw [Bool.eq_false_iff]
  intro h
  unfold specLineRegex at h
  rw [matchString_anchored] at h
  obtain ⟨st, hst⟩ := h
  rw [mem_cat_cons] at hst
  obtain ⟨m, hm, -⟩ := hst
  rw [mem_run_char] at hm
  obtain ⟨c, hc, hline, -⟩ := hm
  simp only [List.cons.injEq] at hline
  rw [← hline.1] at hc
  exact absurd hc (by decide)

/-- C1: when secrets are configured and fetch, cipher construction and decryption
succeed, `decryptEnv` returns nil and leaves in `env` the original entries, unchanged
and in place, followed by one entry per line of the plaintext (split on newlines) whose
trimmed form matches `^[A-Za-z][0-9A-Za-z_]*=.*$`, in line order and without
deduplication; blank lines and lines starting with `#` do not match; and for the
plaintext `A=1`, blank, `# comment`, `bad line`, `B=2=3` with escaping off the appended
entries are `A=1` and `B=2=3`. -/
theorem decryptEnv_appends_kept_lines (w : World) (url key : Str) (env : List Str)
    (escape : Bool) (data : Bytes) (text : Str) (hurl : url ≠ []) (hkey : key ≠ [])
    (hfetch : s3GetObject w url = .ok data) (hcipher : w.NewCipher = none)
    (hdec : w.Decrypt key data = .ok text) :
    (decryptEnv w url key env escape).ret = .nil ∧
    (decryptEnv w url key env escape).env =
      env ++
        (((stringsSplit text '\n').map TrimSpace).filter
          (fun l => MatchString specLineRegex l)).map (envEntry escape) ∧
    (∀ raw : Str, TrimSpace raw = [] → MatchString specLineRegex (TrimSpace raw) = false) ∧
    (∀ raw rest : Str, TrimSpace raw = '#' :: rest →
      MatchString specLineRegex (TrimSpace raw) = false) ∧
    (text = "A=1\n\n# comment\nbad line\nB=2=3\n".toList →
      (decryptEnv w url key env false).env = env ++ ["A=1".toList, "B=2=3".toList]) := by
  refine ⟨?_, ?_, ?_, ?_, ?_⟩
  · rw [decryptEnv_success w url key env escape data text hurl hkey hfetch hcipher hdec]
  · rw [decryptEnv_success w url key env escape data text hurl hkey hfetch hcipher hdec]
    rfl
  · intro raw hraw
    rw [hraw]
    decide
  · intro raw rest hraw
    rw [hraw]
    exact specLineRegex_rejects_comment rest
  · intro ht
    rw [decryptEnv_success w url key env false data text hurl hkey hfetch hcipher hdec, ht]
    have : specEntries false "A=1\n\n# comment\nbad line\nB=2=3\n".toList =
        ["A=1".toList, "B=2=3".toList] := by decide
    rw [this]

/-- C1 at the plaintext of the specification, with one inherited entry. -/
theorem decryptEnv_appends_kept_lines_witness :
    (decryptEnv (plainWorld "A=1\n\n# comment\nbad line\nB=2=3\n".toList) sampleUrl sampleKey
        ["HOME=/root".toList] false).env =
      ["HOME=/root".toList] ++ ["A=1".toList, "B=2=3".toList] :=
  (decryptEnv_appends_kept_lines (plainWorld "A=1\n\n# comment\nbad line\nB=2=3\n".toList)
    sampleUrl sampleKey ["HOME=/root".toList] false [1, 2, 3]
    "A=1\n\n# comment\nbad line\nB=2=3\n".toList (by decide) (by decide) rfl rfl
    rfl).2.2.2.2 rfl

theorem mem_eq_sign_of_lineShape (line : Str) (h : lineShape line = true) : '=' ∈ line := by
  obtain ⟨c, pre, rest, rfl, -, -⟩ := (lineShape_iff line).1 h
  simp

/-- In a string that contains the separator, the pieces after the first one join to
what follows the first separator. -/
theorem stringsJoin_drop_stringsSplit (s : Str) (sep : Char) (h : sep ∈ s) :
    stringsJoin ((stringsSplit s sep).drop 1) [sep] =
      (s.dropWhile (fun c => c != sep)).drop 1 := by
  rw [stringsSplit_eq]
  cases hd : s.dropWhile (fun c => c != sep) with
  | nil =>
    rw [List.dropWhile_eq_nil_iff] at hd
    have := hd sep h
    simp at this
  | cons d r =>
    simp only [List.drop_succ_cons, List.drop_zero]
    exact stringsJoin_stringsSplit r sep

theorem idx_zero_stringsSplit (s : Str) (sep : Char) :
    idx (stringsSplit s sep) 0 = s.takeWhile (fun c => c != sep) := by
  rw [stringsSplit_eq]
  simp [idx]

/-- Without escaping the entry of a line that contains `=` is the line itself. -/
theorem envEntry_false (line : Str) (h : '=' ∈ line) : envEntry false line = line := by
  have hj := stringsJoin_stringsSplit line '='
  simp only [envEntry, idx, Bool.false_eq_true, if_false]
  cases hs : stringsSplit line '=' with
  | nil => exact absurd hs (stringsSplit_ne_nil line '=')
  | cons p ps =>
    rw [hs] at hj
    cases ps with
    | nil =>
      simp only [stringsJoin] at hj
      have := not_mem_of_mem_stringsSplit line '=' p (by simp [hs])
      rw [hj] at this
      exact absurd h this
    | cons q qs =>
      rw [stringsJoin_cons_cons] at hj
      simpa using hj

/-- C2: for a line that `decryptEnv` keeps, the name is the text before the first `=`
and the value is everything after the first `=`, further `=` included, so that with
escaping off the appended entry is the trimmed line itself; `B=2=3` has name `B` and
value `2=3`. -/
theorem kept_line_splits_at_first_equals (raw : Str) (env : List Str)
    (hne : TrimSpace raw ≠ [])
    (hkept : MatchString envFileLineRegex (TrimSpace raw) = true)
    (hcomment : (TrimSpace raw).head? ≠ some '#') :
    idx (stringsSplit (TrimSpace raw) '=') 0 = (TrimSpace raw).takeWhile (fun c => c != '=') ∧
    stringsJoin ((stringsSplit (TrimSpace raw) '=').drop 1) ['='] =
      ((TrimSpace raw).dropWhile (fun c => c != '=')).drop 1 ∧
    envEntry false (TrimSpace raw) = TrimSpace raw ∧
    decryptLoop false [raw] env = env ++ [TrimSpace raw] ∧
    idx (stringsSplit "B=2=3".toList '=') 0 = "B".toList ∧
    stringsJoin ((stringsSplit "B=2=3".toList '=').drop 1) ['='] = "2=3".toList := by
  have hshape : lineShape (TrimSpace raw) = true := by
    rw [← matchString_envFileLineRegex]; exact hkept
  have hmem := mem_eq_sign_of_lineShape _ hshape
  refine ⟨idx_zero_stringsSplit _ _, stringsJoin_drop_stringsSplit _ _ hmem,
    envEntry_false _ hmem, ?_, by decide, by decide⟩
  simp [decryptLoop, hne, hkept, hcomment, envEntry_false _ hmem]

/-- C2 at the raw line `  B=2=3 `. -/
theorem kept_line_splits_at_first_equals_witness :
    envEntry false (TrimSpace "  B=2=3 ".toList) = TrimSpace "  B=2=3 ".toList ∧
    decryptLoop false ["  B=2=3 ".toList] [] = [] ++ [TrimSpace "  B=2=3 ".toList] :=
  ⟨(kept_line_splits_at_first_equals "  B=2=3 ".toList [] (by decide) (by decide)
      (by decide)).2.2.1,
    (kept_line_splits_at_first_equals "  B=2=3 ".toList [] (by decide) (by decide)
      (by decide)).2.2.2.1⟩

/-! ## `decryptEnv`: configuration and failures -/

/-- C4: when `url` or `key` is empty `decryptEnv` returns nil, calls neither the
fetch nor the cipher construction nor the decryption, and leaves `env` unchanged; with
both empty and an empty `env` it yields no entries and no error. -/
theorem decryptEnv_not_configured (w : World) (url key : Str) (env : List Str) (escape : Bool)
    (h : url = [] ∨ key = []) :
    decryptEnv w url key env escape = ⟨.nil, env, []⟩ ∧
    (decryptEnv w [] [] [] false).ret = .nil ∧
    (decryptEnv w [] [] [] false).env = [] := by
  refine ⟨?_, ?_, ?_⟩ <;> simp [decryptEnv, h]

/-- C4 with a url but no key. -/
theorem decryptEnv_not_configured_witness :
    decryptEnv (plainWorld "A=1".toList) sampleUrl [] ["HOME=/root".toList] true =
      ⟨.nil, ["HOME=/root".toList], []⟩ :=
  (decryptEnv_not_configured (plainWorld "A=1".toList) sampleUrl [] ["HOME=/root".toList] true
    (Or.inr rfl)).1

/-- C5, the code at the failing input: with a non-empty url and key and a fetch that
succeeds, a failure of `NewCipher` makes `decryptEnv` return nil, not the error, with
`env` unchanged and no decryption attempted. -/
theorem decryptEnv_swallows_cipher_failure :
    s3GetObject noCredentialsWorld sampleUrl = .ok [1, 2, 3] ∧
    noCredentialsWorld.NewCipher ≠ none ∧
    decryptEnv noCredentialsWorld sampleUrl sampleKey ["HOME=/root".toList] false =
      ⟨.nil, ["HOME=/root".toList], [.s3GetObject sampleUrl, .NewCipher]⟩ := by
  refine ⟨rfl, by decide, by decide⟩

/-! ## `exportEnv` and `execEnv` -/

/-- C6, the code at the failing input: with the inherited environment `Q=it's`,
`export` prints the line `export Q=it's` for it, the value neither quoted nor escaped,
both when secrets are not configured and in front of the line of the entry parsed
from the plaintext `A=1`; the printed lines are not those of the parsed entries; an
entry `Q=it's` appended from a plaintext is printed quoted. -/
theorem exportEnv_prints_inherited_unquoted :
    exportEnv (plainWorld "A=1".toList) [] [] ["Q=it's".toList] =
      (.nil, ["export Q=it's\n".toList]) ∧
    s3GetObject (plainWorld "A=1".toList) sampleUrl = .ok [1, 2, 3] ∧
    exportEnv (plainWorld "A=1".toList) sampleUrl sampleKey ["Q=it's".toList] =
      (.nil, ["export Q=it's\n".toList, "export A='1'\n".toList]) ∧
    (exportEnv (plainWorld "A=1".toList) sampleUrl sampleKey ["Q=it's".toList]).2 ≠
      (specEntries true "A=1".toList).map exportLine ∧
    exportEnv (plainWorld "Q=it's".toList) sampleUrl sampleKey [] =
      (.nil, ["export Q='it'\"'\"'s'\n".toList]) := by
  refine ⟨by decide, rfl, by decide, by decide, by decide⟩

/-- C7, the code at the failing input: when the child ends with status 7 (or any
status `n`), `execEnv` returns the error of `Run` to its caller; it never reaches
`os.Exit` with the child's status. -/
theorem execEnv_returns_instead_of_exiting (w : World) (environ : List Str) (n : Nat) :
    execEnv w [] [] environ (some (.exitError 7)) = .err (.exitError 7) ∧
    execEnv w [] [] environ (some (.exitError n)) = .err (.exitError n) ∧
    execEnv w [] [] environ (some (.exitError n)) ≠ .exit n := by
  refine ⟨?_, ?_, ?_⟩ <;> simp [execEnv, decryptEnv]

/-! ## `ParseS3Url`: concrete addresses -/

/-- C9 as stated fails: an address without a path parses successfully with an empty
object key. -/
theorem ParseS3Url_empty_key :
    ParseS3Url "https://bucket.s3.amazonaws.com/".toList = ("bucket".toList, [], [], none) ∧
    ParseS3Url "https://bucket.s3.amazonaws.com".toList = ("bucket".toList, [], [], none) := by
  refine ⟨by decide, by decide⟩

/-- C8, the code at two failing inputs: the path-style address with region `s3`, bucket
`b` and key `k` is taken by the first expression, whose unescaped `.` matches the `-`,
and comes back as bucket `s3`, key `b/k`, no region; the virtual-hosted address with
bucket `b`, region `amazonaws-com/x` and key `k` is taken by the first expression too
and comes back as bucket `b`, key `x.amazonaws.com/k`, no region. -/
theorem ParseS3Url_unescaped_dot :
    "b".toList ≠ [] ∧ '.' ∉ "b".toList ∧ '/' ∉ "b".toList ∧
    "s3".toList ≠ [] ∧ '.' ∉ "s3".toList ∧
    "amazonaws-com/x".toList ≠ [] ∧ '.' ∉ "amazonaws-com/x".toList ∧ '\n' ∉ "k".toList ∧
    ParseS3Url ("http".toList ++ "://".toList ++ "s3-".toList ++ "s3".toList ++
        ".amazonaws.com/".toList ++ "b".toList ++ "/".toList ++ "k".toList) =
      ("s3".toList, "b/k".toList, [], none) ∧
    ParseS3Url ("http".toList ++ "://".toList ++ "b".toList ++ ".s3-".toList ++
        "amazonaws-com/x".toList ++ ".amazonaws.com/".toList ++ "k".toList) =
      ("b".toList, "x.amazonaws.com/k".toList, [], none) := by
  refine ⟨by decide, by decide, by decide, by decide, by decide, by decide, by decide,
    by decide, by decide, by decide⟩

/-! ## `ParseS3Url`: the four dialects -/

/-- The common start `https?://` of the four expressions. -/
theorem run_scheme (n : Nat) (rs : List Regex) (scheme body : Str) (k : Caps)
    (hs : scheme = "http".toList ∨ scheme = "https".toList) :
    Regex.run n (cat (lit "http" :: opt (ch 's') :: lit "://" :: rs))
        (scheme ++ (':' :: '/' :: '/' :: body), k) =
      Regex.run n (cat rs) (body, k) := by
  rcases hs with rfl | rfl <;> simp [lit, opt, ch]

/-- When the class stops at `rest`, the greedy options on `rest` are `rest` alone. -/
theorem greedyOptions_stop (p : Char → Bool) (k : Caps) (rest : Str)
    (hstop : ∀ c ∈ rest.head?, p c = false) : greedyOptions p k rest = [(rest, k)] := by
  cases rest with
  | nil => rfl
  | cons c r =>
    have : p c = false := hstop c (by simp)
    simp [this, greedyOptions_cons]

/-- The states after `(p+)` on a run `x` of class characters followed by `rest`, at
which the class stops: all of `x` first, then giving back. -/
theorem run_group_plus (n i : Nat) (p : Char → Bool) (c : Char) (cs rest : Str) (k : Caps)
    (hx : ∀ d ∈ c :: cs, p d = true) (hstop : ∀ d ∈ rest.head?, p d = false) :
    ∃ others : List MState,
      Regex.run n (.group i (plus (.char p))) (c :: cs ++ rest, k) =
        (rest, setCap k i (c :: cs)) :: others ∧
      ∀ st ∈ others, ∃ t, t ≠ [] ∧ t <:+ cs ∧ st.1 = t ++ rest := by
  have hc : p c = true := hx c (by simp)
  have hcs : ∀ d ∈ cs, p d = true := fun d hd => hx d (by simp [hd])
  refine ⟨(backOptions k rest cs).map
    (fun st' => (st'.1, setCap st'.2 i
      ((c :: cs ++ rest).take ((c :: cs ++ rest).length - st'.1.length)))), ?_, ?_⟩
  · have ht := take_sub_length (c :: cs) rest
    simp only [List.cons_append] at ht
    simp only [plus, run_group, run_seq, List.cons_append, run_char_cons, hc, if_true,
      List.flatMap_cons, List.flatMap_nil, List.append_nil, run_star_char,
      greedyOptions_append p k cs rest hcs, greedyOptions_stop p k rest hstop,
      List.singleton_append, List.map_cons, ht, List.nil_append]
  · intro st hst
    obtain ⟨st', hst', rfl⟩ := List.mem_map.1 hst
    obtain ⟨t, h1, h2, h3⟩ := mem_backOptions k rest cs st' hst'
    exact ⟨t, h1, h2, by rw [h3]⟩

/-- Success through `(p+)`: when what follows succeeds after the whole run, that is the
preferred match. -/
theorem head_group_plus (n i : Nat) (p : Char → Bool) (rs : List Regex) (x rest : Str)
    (k : Caps) (y : MState) (hne : x ≠ []) (hx : ∀ d ∈ x, p d = true)
    (hstop : ∀ d ∈ rest.head?, p d = false)
    (hy : (Regex.run n (cat rs) (rest, setCap k i x)).head? = some y) :
    (Regex.run n (cat (.group i (plus (.char p)) :: rs)) (x ++ rest, k)).head? = some y := by
  cases x with
  | nil => exact absurd rfl hne
  | cons c cs =>
    obtain ⟨others, h1, -⟩ := run_group_plus n i p c cs rest k hx hstop
    rw [run_cat_cons, h1, List.flatMap_cons, List.head?_append, hy]
    rfl

/-- Failure through `(p+)`: when what follows fails after the whole run and after every
shorter one, the whole fails. -/
theorem nil_group_plus (n i : Nat) (p : Char → Bool) (rs : List Regex) (x rest : Str)
    (k : Caps) (hx : ∀ d ∈ x, p d = true) (hstop : ∀ d ∈ rest.head?, p d = false)
    (hfail : ∀ (t : Str) (k' : Caps), t <:+ x.tail → Regex.run n (cat rs) (t ++ rest, k') = []) :
    Regex.run n (cat (.group i (plus (.char p)) :: rs)) (x ++ rest, k) = [] := by
  cases x with
  | nil =>
    cases rest with
    | nil => simp [plus]
    | cons d r =>
      have : p d = false := hstop d (by simp)
      simp [plus, this]
  | cons c cs =>
    obtain ⟨others, h1, h2⟩ := run_group_plus n i p c cs rest k hx hstop
    rw [run_cat_cons, h1, List.flatMap_eq_nil_iff]
    intro st hst
    rcases List.mem_cons.1 hst with rfl | hst
    · exact hfail [] _ List.nil_suffix
    · obtain ⟨t, -, ht, hst1⟩ := h2 st hst
      have := hfail t st.2 ht
      rw [← hst1] at this
      exact this

/-- The tail `(/?$|/(.*))` on `/key`: the preferred match captures the key. -/
theorem head_keyTail (n g : Nat) (key : Str) (k : Caps) (hkey : '\n' ∉ key)
    (hk : k (g + 1) = []) :
    ∃ st, (Regex.run n (cat [keyTail g]) ('/' :: key, k)).head? = some st ∧
      st.2 (g + 1) = key ∧ ∀ j, j < g → st.2 j = k j := by
  cases key with
  | nil =>
    refine ⟨([], setCap k g ['/']), ?_, ?_, ?_⟩
    · simp [keyTail, opt, ch]
    · simp [setCap, hk]
    · intro j hj
      have : j ≠ g := by omega
      simp [setCap, this]
  | cons c cs =>
    have hall : ∀ d ∈ c :: cs, (fun x => x != '\n') d = true := by
      intro d hd
      have : d ≠ '\n' := by
        rintro rfl
        exact hkey hd
      simpa using this
    have hgo := greedyOptions_append (fun x => x != '\n') k (c :: cs) [] hall
    simp only [List.append_nil, greedyOptions_nil] at hgo
    refine ⟨([], setCap (setCap k (g + 1) (c :: cs)) g ('/' :: c :: cs)), ?_, ?_, ?_⟩
    · simp [keyTail, opt, ch, anyc, hgo]
    · simp [setCap]
    · intro j hj
      have h1 : j ≠ g := by omega
      have h2 : j ≠ g + 1 := by omega
      simp [setCap, h1, h2]

/-- Concatenation is associative for the matcher. -/
theorem run_cat_append (n : Nat) (as rs : List Regex) (st : MState) :
    Regex.run n (cat (cat as :: rs)) st = Regex.run n (cat (as ++ rs)) st := by
  induction as generalizing st with
  | nil => simp
  | cons a as ih =>
    simp only [run_cat_cons, List.cons_append, List.flatMap_assoc] at ih ⊢
    congr 1
    funext m
    exact ih m

theorem run_lit_cat (n : Nat) (w : String) (rs : List Regex) (st : MState) :
    Regex.run n (cat (lit w :: rs)) st = Regex.run n (cat (w.toList.map ch ++ rs)) st := by
  unfold lit
  exact run_cat_append n _ rs st

theorem run_ch_cat_cons (n : Nat) (a c : Char) (cs : Str) (rs : List Regex) (k : Caps) :
    Regex.run n (cat (ch a :: rs)) (c :: cs, k) =
      if c = a then Regex.run n (cat rs) (cs, k) else [] := by
  by_cases h : c = a <;> simp [ch, h]

theorem run_ch_cat_nil (n : Nat) (a : Char) (rs : List Regex) (k : Caps) :
    Regex.run n (cat (ch a :: rs)) ([], k) = [] := by
  simp [ch]

theorem run_anyc_cat_cons (n : Nat) (c : Char) (cs : Str) (rs : List Regex) (k : Caps) :
    Regex.run n (cat (anyc :: rs)) (c :: cs, k) =
      if c = '\n' then [] else Regex.run n (cat rs) (cs, k) := by
  by_cases h : c = '\n' <;> simp [anyc, h]

theorem run_anyc_cat_nil (n : Nat) (rs : List Regex) (k : Caps) :
    Regex.run n (cat (anyc :: rs)) ([], k) = [] := by
  simp [anyc]

/-- The tail `(/?$|/(.*))` fails on input that does not start with `/`. -/
theorem run_keyTail_cons (n g : Nat) (c : Char) (cs : Str) (rs : List Regex) (k : Caps)
    (h : ¬ '/' = c) : Regex.run n (cat (keyTail g :: rs)) (c :: cs, k) = [] := by
  have h' : ¬ c = '/' := fun e => h e.symm
  simp [keyTail, opt, ch, h']

/-- The literal-and-wildcard stretch `.s3.amazonaws.com` of the first expression. -/
theorem run_host1 (n : Nat) (rs : List Regex) (c1 c2 c3 : Char) (body : Str) (k : Caps)
    (h1 : c1 ≠ '\n') (h2 : c2 ≠ '\n') (h3 : c3 ≠ '\n') :
    Regex.run n (cat (anyc :: lit "s3" :: anyc :: lit "amazonaws" :: anyc :: lit "com" :: rs))
        (c1 :: 's' :: '3' :: c2 :: 'a' :: 'm' :: 'a' :: 'z' :: 'o' :: 'n' :: 'a' :: 'w' :: 's' ::
          c3 :: 'c' :: 'o' :: 'm' :: body, k) =
      Regex.run n (cat rs) (body, k) := by
  simp [lit, ch, anyc, h1, h2, h3]

theorem submatches_three (s : Str) (st : MState) :
    submatches 3 s st = [s.take (s.length - st.1.length), st.2 1, st.2 2, st.2 3] := by
  simp [submatches, List.range, List.range.loop]

theorem submatches_four (s : Str) (st : MState) :
    submatches 4 s st = [s.take (s.length - st.1.length), st.2 1, st.2 2, st.2 3, st.2 4] := by
  simp [submatches, List.range, List.range.loop]

theorem notDot_of_not_mem (x : Str) (h : '.' ∉ x) : ∀ d ∈ x, (fun c => c != '.') d = true := by
  intro d hd
  have : d ≠ '.' := by
    rintro rfl
    exact h hd
  simpa using this

theorem notSlash_of_not_mem (x : Str) (h : '/' ∉ x) : ∀ d ∈ x, (fun c => c != '/') d = true := by
  intro d hd
  have : d ≠ '/' := by
    rintro rfl
    exact h hd
  simpa using this


/-- After any part of the bucket, the rest of the first expression fails on a
virtual-hosted address with region. -/
theorem tail1_fails_dialect2 (n : Nat) (t region key : Str) (k : Caps)
    (ht1 : '.' ∉ t) (ht2 : '/' ∉ t) (hr1 : '.' ∉ region) (hr2 : '/' ∉ region) :
    Regex.run n (cat [anyc, lit "s3", anyc, lit "amazonaws", anyc, lit "com", keyTail 2])
        (t ++ ('.' :: 's' :: '3' :: '-' :: (region ++
          ('.' :: 'a' :: 'm' :: 'a' :: 'z' :: 'o' :: 'n' :: 'a' :: 'w' :: 's' ::
            '.' :: 'c' :: 'o' :: 'm' :: '/' :: key))), k) = [] := by
  rcases t with _ | ⟨t0, t⟩
  · rcases region with _ | ⟨r0, region⟩
    · simp [-run_cat_cons, run_lit_cat, run_ch_cat_cons, run_ch_cat_nil, run_anyc_cat_cons, run_anyc_cat_nil, run_keyTail_cons]
    rcases region with _ | ⟨r1, region⟩
    · simp [-run_cat_cons, run_lit_cat, run_ch_cat_cons, run_ch_cat_nil, run_anyc_cat_cons, run_anyc_cat_nil, run_keyTail_cons]
    rcases region with _ | ⟨r2, region⟩
    · simp [-run_cat_cons, run_lit_cat, run_ch_cat_cons, run_ch_cat_nil, run_anyc_cat_cons, run_anyc_cat_nil, run_keyTail_cons]
    rcases region with _ | ⟨r3, region⟩
    · simp [-run_cat_cons, run_lit_cat, run_ch_cat_cons, run_ch_cat_nil, run_anyc_cat_cons, run_anyc_cat_nil, run_keyTail_cons]
    rcases region with _ | ⟨r4, region⟩
    · simp [-run_cat_cons, run_lit_cat, run_ch_cat_cons, run_ch_cat_nil, run_anyc_cat_cons, run_anyc_cat_nil, run_keyTail_cons]
    rcases region with _ | ⟨r5, region⟩
    · simp [-run_cat_cons, run_lit_cat, run_ch_cat_cons, run_ch_cat_nil, run_anyc_cat_cons, run_anyc_cat_nil, run_keyTail_cons]
    rcases region with _ | ⟨r6, region⟩
    · simp [-run_cat_cons, run_lit_cat, run_ch_cat_cons, run_ch_cat_nil, run_anyc_cat_cons, run_anyc_cat_nil, run_keyTail_cons]
    rcases region with _ | ⟨r7, region⟩
    · simp [-run_cat_cons, run_lit_cat, run_ch_cat_cons, run_ch_cat_nil, run_anyc_cat_cons, run_anyc_cat_nil, run_keyTail_cons]
    rcases region with _ | ⟨r8, region⟩
    · simp [-run_cat_cons, run_lit_cat, run_ch_cat_cons, run_ch_cat_nil, run_anyc_cat_cons, run_anyc_cat_nil, run_keyTail_cons]
    rcases region with _ | ⟨r9, region⟩
    · simp [-run_cat_cons, run_lit_cat, run_ch_cat_cons, run_ch_cat_nil, run_anyc_cat_cons, run_anyc_cat_nil, run_keyTail_cons]
    rcases region with _ | ⟨r10, region⟩
    · simp [-run_cat_cons, run_lit_cat, run_ch_cat_cons, run_ch_cat_nil, run_anyc_cat_cons, run_anyc_cat_nil, run_keyTail_cons]
    rcases region with _ | ⟨r11, region⟩
    · simp [-run_cat_cons, run_lit_cat, run_ch_cat_cons, run_ch_cat_nil, run_anyc_cat_cons, run_anyc_cat_nil, run_keyTail_cons]
    rcases region with _ | ⟨r12, region⟩
    · simp [-run_cat_cons, run_lit_cat, run_ch_cat_cons, run_ch_cat_nil, run_anyc_cat_cons, run_anyc_cat_nil, run_keyTail_cons]
    rcases region with _ | ⟨r13, region⟩
    · simp [-run_cat_cons, run_lit_cat, run_ch_cat_cons, run_ch_cat_nil, run_anyc_cat_cons, run_anyc_cat_nil, run_keyTail_cons]
    simp only [List.mem_cons, not_or] at hr1 hr2
    simp [-run_cat_cons, run_lit_cat, run_ch_cat_cons, run_ch_cat_nil, run_anyc_cat_cons, run_anyc_cat_nil, run_keyTail_cons, hr2]
  rcases t with _ | ⟨t1, t⟩
  · simp [-run_cat_cons, run_lit_cat, run_ch_cat_cons, run_ch_cat_nil, run_anyc_cat_cons, run_anyc_cat_nil, run_keyTail_cons]
  rcases t with _ | ⟨t2, t⟩
  · simp [-run_cat_cons, run_lit_cat, run_ch_cat_cons, run_ch_cat_nil, run_anyc_cat_cons, run_anyc_cat_nil, run_keyTail_cons]
  rcases t with _ | ⟨t3, t⟩
  · simp [-run_cat_cons, run_lit_cat, run_ch_cat_cons, run_ch_cat_nil, run_anyc_cat_cons, run_anyc_cat_nil, run_keyTail_cons]
  rcases t with _ | ⟨t4, t⟩
  · simp [-run_cat_cons, run_lit_cat, run_ch_cat_cons, run_ch_cat_nil, run_anyc_cat_cons, run_anyc_cat_nil, run_keyTail_cons]
  rcases t with _ | ⟨t5, t⟩
  · simp [-run_cat_cons, run_lit_cat, run_ch_cat_cons, run_ch_cat_nil, run_anyc_cat_cons, run_anyc_cat_nil, run_keyTail_cons]
  rcases t with _ | ⟨t6, t⟩
  · simp [-run_cat_cons, run_lit_cat, run_ch_cat_cons, run_ch_cat_nil, run_anyc_cat_cons, run_anyc_cat_nil, run_keyTail_cons]
  rcases t with _ | ⟨t7, t⟩
  · simp [-run_cat_cons, run_lit_cat, run_ch_cat_cons, run_ch_cat_nil, run_anyc_cat_cons, run_anyc_cat_nil, run_keyTail_cons]
  rcases t with _ | ⟨t8, t⟩
  · simp [-run_cat_cons, run_lit_cat, run_ch_cat_cons, run_ch_cat_nil, run_anyc_cat_cons, run_anyc_cat_nil, run_keyTail_cons]
  rcases t with _ | ⟨t9, t⟩
  · simp [-run_cat_cons, run_lit_cat, run_ch_cat_cons, run_ch_cat_nil, run_anyc_cat_cons, run_anyc_cat_nil, run_keyTail_cons]
  rcases t with _ | ⟨t10, t⟩
  · simp [-run_cat_cons, run_lit_cat, run_ch_cat_cons, run_ch_cat_nil, run_anyc_cat_cons, run_anyc_cat_nil, run_keyTail_cons]
  rcases t with _ | ⟨t11, t⟩
  · simp [-run_cat_cons, run_lit_cat, run_ch_cat_cons, run_ch_cat_nil, run_anyc_cat_cons, run_anyc_cat_nil, run_keyTail_cons]
  rcases t with _ | ⟨t12, t⟩
  · simp [-run_cat_cons, run_lit_cat, run_ch_cat_cons, run_ch_cat_nil, run_anyc_cat_cons, run_anyc_cat_nil, run_keyTail_cons]
  rcases t with _ | ⟨t13, t⟩
  · simp [-run_cat_cons, run_lit_cat, run_ch_cat_cons, run_ch_cat_nil, run_anyc_cat_cons, run_anyc_cat_nil, run_keyTail_cons]
  rcases t with _ | ⟨t14, t⟩
  · simp [-run_cat_cons, run_lit_cat, run_ch_cat_cons, run_ch_cat_nil, run_anyc_cat_cons, run_anyc_cat_nil, run_keyTail_cons]
  rcases t with _ | ⟨t15, t⟩
  · simp [-run_cat_cons, run_lit_cat, run_ch_cat_cons, run_ch_cat_nil, run_anyc_cat_cons, run_anyc_cat_nil, run_keyTail_cons]
  rcases t with _ | ⟨t16, t⟩
  · simp [-run_cat_cons, run_lit_cat, run_ch_cat_cons, run_ch_cat_nil, run_anyc_cat_cons, run_anyc_cat_nil, run_keyTail_cons]
  rcases t with _ | ⟨t17, t⟩
  · simp [-run_cat_cons, run_lit_cat, run_ch_cat_cons, run_ch_cat_nil, run_anyc_cat_cons, run_anyc_cat_nil, run_keyTail_cons]
  simp only [List.mem_cons, not_or] at ht1 ht2
  simp [-run_cat_cons, run_lit_cat, run_ch_cat_cons, run_ch_cat_nil, run_anyc_cat_cons, run_anyc_cat_nil, run_keyTail_cons, ht2]

/-! ### Walking through the literal stretches -/

theorem walk_s3dash (n : Nat) (rs : List Regex) (body : Str) (k : Caps) :
    Regex.run n (cat (anyc :: lit "s3-" :: rs)) ('.' :: 's' :: '3' :: '-' :: body, k) =
      Regex.run n (cat rs) (body, k) := by
  simp [-run_cat_cons, run_lit_cat, run_ch_cat_cons, run_ch_cat_nil, run_anyc_cat_cons, run_anyc_cat_nil, run_keyTail_cons]

theorem walk_amazonaws (n : Nat) (rs : List Regex) (body : Str) (k : Caps) :
    Regex.run n (cat (anyc :: lit "amazonaws" :: anyc :: lit "com" :: rs))
        ('.' :: 'a' :: 'm' :: 'a' :: 'z' :: 'o' :: 'n' :: 'a' :: 'w' :: 's' ::
            '.' :: 'c' :: 'o' :: 'm' :: body, k) =
      Regex.run n (cat rs) (body, k) := by
  simp [-run_cat_cons, run_lit_cat, run_ch_cat_cons, run_ch_cat_nil, run_anyc_cat_cons, run_anyc_cat_nil, run_keyTail_cons]

theorem walk_amazonaws_slash (n : Nat) (rs : List Regex) (body : Str) (k : Caps) :
    Regex.run n (cat (anyc :: lit "amazonaws" :: anyc :: lit "com/" :: rs))
        ('.' :: 'a' :: 'm' :: 'a' :: 'z' :: 'o' :: 'n' :: 'a' :: 'w' :: 's' ::
            '.' :: 'c' :: 'o' :: 'm' :: '/' :: body, k) =
      Regex.run n (cat rs) (body, k) := by
  simp [-run_cat_cons, run_lit_cat, run_ch_cat_cons, run_ch_cat_nil, run_anyc_cat_cons, run_anyc_cat_nil, run_keyTail_cons]

theorem walk_path3 (n : Nat) (rs : List Regex) (body : Str) (k : Caps) :
    Regex.run n (cat (lit "s3" :: anyc :: lit "amazonaws" :: anyc :: lit "com/" :: rs))
        ('s' :: '3' :: '.' :: 'a' :: 'm' :: 'a' :: 'z' :: 'o' :: 'n' :: 'a' :: 'w' :: 's' ::
            '.' :: 'c' :: 'o' :: 'm' :: '/' :: body, k) =
      Regex.run n (cat rs) (body, k) := by
  simp [-run_cat_cons, run_lit_cat, run_ch_cat_cons, run_ch_cat_nil, run_anyc_cat_cons, run_anyc_cat_nil, run_keyTail_cons]

theorem walk_path4 (n : Nat) (rs : List Regex) (body : Str) (k : Caps) :
    Regex.run n (cat (lit "s3-" :: rs)) ('s' :: '3' :: '-' :: body, k) =
      Regex.run n (cat rs) (body, k) := by
  simp [-run_cat_cons, run_lit_cat, run_ch_cat_cons, run_ch_cat_nil, run_anyc_cat_cons, run_anyc_cat_nil, run_keyTail_cons]

/-! ### Where the earlier expressions fail -/

/-- After `.`, `s3` cannot be read where the text has no `s3` before the next `.a`. -/
theorem anyc_s3_fails (n : Nat) (rs : List Regex) (t body : Str) (k : Caps)
    (h : ¬ ['s', '3'] <:+: t) :
    Regex.run n (cat (anyc :: lit "s3" :: rs)) (t ++ ('.' :: 'a' :: body), k) = [] := by
  rcases t with _ | ⟨t0, t⟩
  · simp [-run_cat_cons, run_lit_cat, run_ch_cat_cons, run_ch_cat_nil, run_anyc_cat_cons, run_anyc_cat_nil, run_keyTail_cons]
  rcases t with _ | ⟨t1, t⟩
  · simp [-run_cat_cons, run_lit_cat, run_ch_cat_cons, run_ch_cat_nil, run_anyc_cat_cons, run_anyc_cat_nil, run_keyTail_cons]
  rcases t with _ | ⟨t2, t⟩
  · simp [-run_cat_cons, run_lit_cat, run_ch_cat_cons, run_ch_cat_nil, run_anyc_cat_cons, run_anyc_cat_nil, run_keyTail_cons]
  simp [-run_cat_cons, run_lit_cat, run_ch_cat_cons, run_ch_cat_nil, run_anyc_cat_cons, run_anyc_cat_nil, run_keyTail_cons]
  rintro - rfl rfl
  exact absurd ⟨[t0], t, rfl⟩ h

/-- The same for `s3-`. -/
theorem anyc_s3dash_fails (n : Nat) (rs : List Regex) (t body : Str) (k : Caps)
    (h : ¬ ['s', '3'] <:+: t) :
    Regex.run n (cat (anyc :: lit "s3-" :: rs)) (t ++ ('.' :: 'a' :: body), k) = [] := by
  rcases t with _ | ⟨t0, t⟩
  · simp [-run_cat_cons, run_lit_cat, run_ch_cat_cons, run_ch_cat_nil, run_anyc_cat_cons, run_anyc_cat_nil, run_keyTail_cons]
  rcases t with _ | ⟨t1, t⟩
  · simp [-run_cat_cons, run_lit_cat, run_ch_cat_cons, run_ch_cat_nil, run_anyc_cat_cons, run_anyc_cat_nil, run_keyTail_cons]
  rcases t with _ | ⟨t2, t⟩
  · simp [-run_cat_cons, run_lit_cat, run_ch_cat_cons, run_ch_cat_nil, run_anyc_cat_cons, run_anyc_cat_nil, run_keyTail_cons]
  simp [-run_cat_cons, run_lit_cat, run_ch_cat_cons, run_ch_cat_nil, run_anyc_cat_cons, run_anyc_cat_nil, run_keyTail_cons]
  rintro - rfl rfl
  exact absurd ⟨[t0], t, rfl⟩ h

/-- The third expression cannot read `amazonaws.com/` inside a region without `/`. -/
theorem path3_fails_dialect4 (n : Nat) (rs : List Regex) (region body : Str) (k : Caps)
    (hr1 : '.' ∉ region) (hr2 : '/' ∉ region) :
    Regex.run n (cat (lit "s3" :: anyc :: lit "amazonaws" :: anyc :: lit "com/" :: rs))
        ('s' :: '3' :: '-' :: (region ++ ('.' :: 'a' :: body)), k) = [] := by
  rcases region with _ | ⟨r0, region⟩
  · simp [-run_cat_cons, run_lit_cat, run_ch_cat_cons, run_ch_cat_nil, run_anyc_cat_cons, run_anyc_cat_nil, run_keyTail_cons]
  rcases region with _ | ⟨r1, region⟩
  · simp [-run_cat_cons, run_lit_cat, run_ch_cat_cons, run_ch_cat_nil, run_anyc_cat_cons, run_anyc_cat_nil, run_keyTail_cons]
  rcases region with _ | ⟨r2, region⟩
  · simp [-run_cat_cons, run_lit_cat, run_ch_cat_cons, run_ch_cat_nil, run_anyc_cat_cons, run_anyc_cat_nil, run_keyTail_cons]
  rcases region with _ | ⟨r3, region⟩
  · simp [-run_cat_cons, run_lit_cat, run_ch_cat_cons, run_ch_cat_nil, run_anyc_cat_cons, run_anyc_cat_nil, run_keyTail_cons]
  rcases region with _ | ⟨r4, region⟩
  · simp [-run_cat_cons, run_lit_cat, run_ch_cat_cons, run_ch_cat_nil, run_anyc_cat_cons, run_anyc_cat_nil, run_keyTail_cons]
  rcases region with _ | ⟨r5, region⟩
  · simp [-run_cat_cons, run_lit_cat, run_ch_cat_cons, run_ch_cat_nil, run_anyc_cat_cons, run_anyc_cat_nil, run_keyTail_cons]
  rcases region with _ | ⟨r6, region⟩
  · simp [-run_cat_cons, run_lit_cat, run_ch_cat_cons, run_ch_cat_nil, run_anyc_cat_cons, run_anyc_cat_nil, run_keyTail_cons]
  rcases region with _ | ⟨r7, region⟩
  · simp [-run_cat_cons, run_lit_cat, run_ch_cat_cons, run_ch_cat_nil, run_anyc_cat_cons, run_anyc_cat_nil, run_keyTail_cons]
  rcases region with _ | ⟨r8, region⟩
  · simp [-run_cat_cons, run_lit_cat, run_ch_cat_cons, run_ch_cat_nil, run_anyc_cat_cons, run_anyc_cat_nil, run_keyTail_cons]
  rcases region with _ | ⟨r9, region⟩
  · simp [-run_cat_cons, run_lit_cat, run_ch_cat_cons, run_ch_cat_nil, run_anyc_cat_cons, run_anyc_cat_nil, run_keyTail_cons]
  rcases region with _ | ⟨r10, region⟩
  · simp [-run_cat_cons, run_lit_cat, run_ch_cat_cons, run_ch_cat_nil, run_anyc_cat_cons, run_anyc_cat_nil, run_keyTail_cons]
  rcases region with _ | ⟨r11, region⟩
  · simp [-run_cat_cons, run_lit_cat, run_ch_cat_cons, run_ch_cat_nil, run_anyc_cat_cons, run_anyc_cat_nil, run_keyTail_cons]
  rcases region with _ | ⟨r12, region⟩
  · simp [-run_cat_cons, run_lit_cat, run_ch_cat_cons, run_ch_cat_nil, run_anyc_cat_cons, run_anyc_cat_nil, run_keyTail_cons]
  rcases region with _ | ⟨r13, region⟩
  · simp [-run_cat_cons, run_lit_cat, run_ch_cat_cons, run_ch_cat_nil, run_anyc_cat_cons, run_anyc_cat_nil, run_keyTail_cons]
  simp only [List.mem_cons, not_or] at hr1 hr2
  have h13 : ¬ r13 = '/' := fun e => hr2.2.2.2.2.2.2.2.2.2.2.2.2.2.1 e.symm
  simp [-run_cat_cons, run_lit_cat, run_ch_cat_cons, run_ch_cat_nil, run_anyc_cat_cons, run_anyc_cat_nil, run_keyTail_cons, h13]

/-! ### The four expressions on the four dialects -/

theorem dialect1_eq (scheme bucket key : Str) :
    dialect1 scheme bucket key =
      scheme ++ (':' :: '/' :: '/' :: (bucket ++
        ('.' :: 's' :: '3' :: '.' :: 'a' :: 'm' :: 'a' :: 'z' :: 'o' :: 'n' :: 'a' :: 'w' :: 's' ::
          '.' :: 'c' :: 'o' :: 'm' :: '/' :: key))) := by
  simp [dialect1]

theorem dialect2_eq (scheme bucket region key : Str) :
    dialect2 scheme bucket region key =
      scheme ++ (':' :: '/' :: '/' :: (bucket ++ ('.' :: 's' :: '3' :: '-' :: (region ++
        ('.' :: 'a' :: 'm' :: 'a' :: 'z' :: 'o' :: 'n' :: 'a' :: 'w' :: 's' ::
          '.' :: 'c' :: 'o' :: 'm' :: '/' :: key))))) := by
  simp [dialect2]

theorem dialect3_eq (scheme bucket key : Str) :
    dialect3 scheme bucket key =
      scheme ++ (':' :: '/' :: '/' :: ('s' :: '3' :: [] ++
        ('.' :: 'a' :: 'm' :: 'a' :: 'z' :: 'o' :: 'n' :: 'a' :: 'w' :: 's' ::
          '.' :: 'c' :: 'o' :: 'm' :: '/' :: (bucket ++ '/' :: key)))) := by
  simp [dialect3]

theorem dialect4_eq (scheme bucket region key : Str) :
    dialect4 scheme bucket region key =
      scheme ++ (':' :: '/' :: '/' :: (('s' :: '3' :: '-' :: region) ++
        ('.' :: 'a' :: 'm' :: 'a' :: 'z' :: 'o' :: 'n' :: 'a' :: 'w' :: 's' ::
          '.' :: 'c' :: 'o' :: 'm' :: '/' :: (bucket ++ '/' :: key)))) := by
  simp [dialect4]

/-- An expression that starts with `^https?://`, on an address with scheme `http` or
`https`: the match is decided by the rest of the expression on the rest of the text. -/
theorem find_after_scheme (rs : List Regex) (g : Nat) (scheme body : Str)
    (hs : scheme = "http".toList ∨ scheme = "https".toList) :
    FindStringSubmatch (cat (.bol :: lit "http" :: opt (ch 's') :: lit "://" :: rs)) g
        (scheme ++ (':' :: '/' :: '/' :: body)) =
      match (Regex.run (scheme ++ (':' :: '/' :: '/' :: body)).length (cat rs)
          (body, fun _ => [])).head? with
      | some st => submatches g (scheme ++ (':' :: '/' :: '/' :: body)) st
      | none => [] := by
  rw [FindStringSubmatch_anchored, run_scheme _ _ _ _ _ hs]

theorem not_mem_of_suffix_tail (c : Char) (t x : Str) (h : c ∉ x) (ht : t <:+ x.tail) :
    c ∉ t :=
  fun hc => h ((ht.trans (List.tail_suffix x)).subset hc)

/-- The first expression on a virtual-hosted address without region. -/
theorem style1_on_dialect1 (scheme bucket key : Str)
    (hs : scheme = "http".toList ∨ scheme = "https".toList)
    (hb : bucket ≠ []) (hb1 : '.' ∉ bucket) (hk : '\n' ∉ key) :
    ∃ m0 m2, FindStringSubmatch regexpS3UrlStyle1 3 (dialect1 scheme bucket key) =
      [m0, bucket, m2, key] := by
  rw [dialect1_eq]
  unfold regexpS3UrlStyle1
  rw [find_after_scheme _ _ _ _ hs]
  simp only [notCh]
  generalize (scheme ++ (':' :: '/' :: '/' :: (bucket ++
        ('.' :: 's' :: '3' :: '.' :: 'a' :: 'm' :: 'a' :: 'z' :: 'o' :: 'n' :: 'a' :: 'w' :: 's' ::
          '.' :: 'c' :: 'o' :: 'm' :: '/' :: key)))) = url
  obtain ⟨st, h1, h2, h3⟩ := head_keyTail url.length 2 key (setCap (fun _ => []) 1 bucket) hk
    (by simp [setCap])
  have hy : (Regex.run url.length
      (cat [anyc, lit "s3", anyc, lit "amazonaws", anyc, lit "com", keyTail 2])
      ('.' :: 's' :: '3' :: '.' :: 'a' :: 'm' :: 'a' :: 'z' :: 'o' :: 'n' :: 'a' :: 'w' :: 's' ::
          '.' :: 'c' :: 'o' :: 'm' :: '/' :: key, setCap (fun _ => []) 1 bucket)).head? =
      some st := by
    rw [run_host1 _ _ _ _ _ _ _ (by decide) (by decide) (by decide)]
    exact h1
  rw [head_group_plus _ 1 _ _ bucket _ _ st hb (notDot_of_not_mem _ hb1) (by simp) hy]
  refine ⟨url.take (url.length - st.1.length), st.2 2, ?_⟩
  simp only [submatches_three]
  rw [h2, h3 1 (by omega)]
  simp [setCap]

theorem style1_fails_dialect2 (scheme bucket region key : Str)
    (hs : scheme = "http".toList ∨ scheme = "https".toList)
    (hb1 : '.' ∉ bucket) (hb2 : '/' ∉ bucket) (hr1 : '.' ∉ region) (hr2 : '/' ∉ region) :
    FindStringSubmatch regexpS3UrlStyle1 3 (dialect2 scheme bucket region key) = [] := by
  rw [dialect2_eq]
  unfold regexpS3UrlStyle1
  rw [find_after_scheme _ _ _ _ hs]
  simp only [notCh]
  rw [nil_group_plus _ 1 _ _ bucket _ _ (notDot_of_not_mem _ hb1) (by simp)]
  · rfl
  · intro t k' ht
    exact tail1_fails_dialect2 _ t region key k' (not_mem_of_suffix_tail _ _ _ hb1 ht)
      (not_mem_of_suffix_tail _ _ _ hb2 ht) hr1 hr2

theorem style2_on_dialect2 (scheme bucket region key : Str)
    (hs : scheme = "http".toList ∨ scheme = "https".toList)
    (hb : bucket ≠ []) (hb1 : '.' ∉ bucket) (hr : region ≠ []) (hr1 : '.' ∉ region)
    (hk : '\n' ∉ key) :
    ∃ m0 m3, FindStringSubmatch regexpS3UrlStyle2 4 (dialect2 scheme bucket region key) =
      [m0, bucket, region, m3, key] := by
  rw [dialect2_eq]
  unfold regexpS3UrlStyle2
  rw [find_after_scheme _ _ _ _ hs]
  simp only [notCh]
  generalize (scheme ++ (':' :: '/' :: '/' :: (bucket ++ ('.' :: 's' :: '3' :: '-' :: (region ++
        ('.' :: 'a' :: 'm' :: 'a' :: 'z' :: 'o' :: 'n' :: 'a' :: 'w' :: 's' ::
          '.' :: 'c' :: 'o' :: 'm' :: '/' :: key)))))) = url
  obtain ⟨st, h1, h2, h3⟩ := head_keyTail url.length 3 key
    (setCap (setCap (fun _ => []) 1 bucket) 2 region) hk (by simp [setCap])
  have hy2 : (Regex.run url.length
      (cat [anyc, lit "amazonaws", anyc, lit "com", keyTail 3])
      ('.' :: 'a' :: 'm' :: 'a' :: 'z' :: 'o' :: 'n' :: 'a' :: 'w' :: 's' ::
          '.' :: 'c' :: 'o' :: 'm' :: '/' :: key,
        setCap (setCap (fun _ => []) 1 bucket) 2 region)).head? = some st := by
    rw [walk_amazonaws]
    exact h1
  have hy1 : (Regex.run url.length
      (cat [anyc, lit "s3-", .group 2 (plus (.char fun x => x != '.')), anyc, lit "amazonaws",
        anyc, lit "com", keyTail 3])
      ('.' :: 's' :: '3' :: '-' :: (region ++
        ('.' :: 'a' :: 'm' :: 'a' :: 'z' :: 'o' :: 'n' :: 'a' :: 'w' :: 's' ::
          '.' :: 'c' :: 'o' :: 'm' :: '/' :: key)), setCap (fun _ => []) 1 bucket)).head? =
      some st := by
    rw [walk_s3dash]
    exact head_group_plus _ 2 _ _ region _ _ st hr (notDot_of_not_mem _ hr1) (by simp) hy2
  rw [head_group_plus _ 1 _ _ bucket _ _ st hb (notDot_of_not_mem _ hb1) (by simp) hy1]
  refine ⟨url.take (url.length - st.1.length), st.2 3, ?_⟩
  simp only [submatches_four]
  rw [h2, h3 1 (by omega), h3 2 (by omega)]
  simp [setCap]

theorem style1_fails_dialect3 (scheme bucket key : Str)
    (hs : scheme = "http".toList ∨ scheme = "https".toList) :
    FindStringSubmatch regexpS3UrlStyle1 3 (dialect3 scheme bucket key) = [] := by
  rw [dialect3_eq]
  unfold regexpS3UrlStyle1
  rw [find_after_scheme _ _ _ _ hs]
  simp only [notCh]
  rw [nil_group_plus _ 1 _ _ ['s', '3'] _ _ (by decide) (by simp)]
  · rfl
  · intro t k' ht
    have ht' : t = ['3'] ∨ t = [] := by
      rcases List.suffix_cons_iff.1 ht with h | h
      · exact Or.inl h
      · exact Or.inr (List.suffix_nil.1 h)
    rcases ht' with rfl | rfl <;>
      simp [-run_cat_cons, run_lit_cat, run_ch_cat_cons, run_anyc_cat_cons]

theorem style2_fails_dialect3 (scheme bucket key : Str)
    (hs : scheme = "http".toList ∨ scheme = "https".toList) :
    FindStringSubmatch regexpS3UrlStyle2 4 (dialect3 scheme bucket key) = [] := by
  rw [dialect3_eq]
  unfold regexpS3UrlStyle2
  rw [find_after_scheme _ _ _ _ hs]
  simp only [notCh]
  rw [nil_group_plus _ 1 _ _ ['s', '3'] _ _ (by decide) (by simp)]
  · rfl
  · intro t k' ht
    have ht' : t = ['3'] ∨ t = [] := by
      rcases List.suffix_cons_iff.1 ht with h | h
      · exact Or.inl h
      · exact Or.inr (List.suffix_nil.1 h)
    rcases ht' with rfl | rfl <;>
      simp [-run_cat_cons, run_lit_cat, run_ch_cat_cons, run_anyc_cat_cons]

theorem style3_on_dialect3 (scheme bucket key : Str)
    (hs : scheme = "http".toList ∨ scheme = "https".toList)
    (hb : bucket ≠ []) (hb2 : '/' ∉ bucket) (hk : '\n' ∉ key) :
    ∃ m0 m2, FindStringSubmatch regexpS3UrlStyle3 3 (dialect3 scheme bucket key) =
      [m0, bucket, m2, key] := by
  rw [dialect3_eq]
  unfold regexpS3UrlStyle3
  rw [find_after_scheme _ _ _ _ hs]
  simp only [notCh, List.cons_append, List.nil_append]
  generalize (scheme ++ (':' :: '/' :: '/' :: 's' :: '3' ::
        '.' :: 'a' :: 'm' :: 'a' :: 'z' :: 'o' :: 'n' :: 'a' :: 'w' :: 's' ::
          '.' :: 'c' :: 'o' :: 'm' :: '/' :: (bucket ++ '/' :: key))) = url
  obtain ⟨st, h1, h2, h3⟩ := head_keyTail url.length 2 key (setCap (fun _ => []) 1 bucket) hk
    (by simp [setCap])
  rw [walk_path3,
    head_group_plus _ 1 _ _ bucket _ _ st hb (notSlash_of_not_mem _ hb2) (by simp) h1]
  refine ⟨url.take (url.length - st.1.length), st.2 2, ?_⟩
  simp only [submatches_three]
  rw [h2, h3 1 (by omega)]
  simp [setCap]

theorem no_s3_in_suffix (t region : Str) (h : ¬ ['s', '3'] <:+: region)
    (ht : t <:+ '3' :: '-' :: region) : ¬ ['s', '3'] <:+: t := by
  intro hi
  have h1 : ['s', '3'] <:+: '3' :: '-' :: region := hi.trans ht.isInfix
  rcases List.infix_cons_iff.1 h1 with h2 | h2
  · obtain ⟨r, hr⟩ := h2
    simp at hr
  · rcases List.infix_cons_iff.1 h2 with h3 | h3
    · obtain ⟨r, hr⟩ := h3
      simp at hr
    · exact h h3

theorem style1_fails_dialect4 (scheme bucket region key : Str)
    (hs : scheme = "http".toList ∨ scheme = "https".toList)
    (hr1 : '.' ∉ region) (hr3 : ¬ ['s', '3'] <:+: region) :
    FindStringSubmatch regexpS3UrlStyle1 3 (dialect4 scheme bucket region key) = [] := by
  rw [dialect4_eq]
  unfold regexpS3UrlStyle1
  rw [find_after_scheme _ _ _ _ hs]
  simp only [notCh]
  have hx : ∀ d ∈ 's' :: '3' :: '-' :: region, (fun c => c != '.') d = true := by
    apply notDot_of_not_mem
    simp [hr1]
  rw [nil_group_plus _ 1 _ _ ('s' :: '3' :: '-' :: region) _ _ hx (by simp)]
  · rfl
  · intro t k' ht
    exact anyc_s3_fails _ _ t _ k' (no_s3_in_suffix t region hr3 ht)

theorem style2_fails_dialect4 (scheme bucket region key : Str)
    (hs : scheme = "http".toList ∨ scheme = "https".toList)
    (hr1 : '.' ∉ region) (hr3 : ¬ ['s', '3'] <:+: region) :
    FindStringSubmatch regexpS3UrlStyle2 4 (dialect4 scheme bucket region key) = [] := by
  rw [dialect4_eq]
  unfold regexpS3UrlStyle2
  rw [find_after_scheme _ _ _ _ hs]
  simp only [notCh]
  have hx : ∀ d ∈ 's' :: '3' :: '-' :: region, (fun c => c != '.') d = true := by
    apply notDot_of_not_mem
    simp [hr1]
  rw [nil_group_plus _ 1 _ _ ('s' :: '3' :: '-' :: region) _ _ hx (by simp)]
  · rfl
  · intro t k' ht
    exact anyc_s3dash_fails _ _ t _ k' (no_s3_in_suffix t region hr3 ht)

theorem style3_fails_dialect4 (scheme bucket region key : Str)
    (hs : scheme = "http".toList ∨ scheme = "https".toList)
    (hr1 : '.' ∉ region) (hr2 : '/' ∉ region) :
    FindStringSubmatch regexpS3UrlStyle3 3 (dialect4 scheme bucket region key) = [] := by
  rw [dialect4_eq]
  unfold regexpS3UrlStyle3
  rw [find_after_scheme _ _ _ _ hs]
  simp only [List.cons_append]
  rw [path3_fails_dialect4 _ _ region _ _ hr1 hr2]
  rfl

theorem style4_on_dialect4 (scheme bucket region key : Str)
    (hs : scheme = "http".toList ∨ scheme = "https".toList)
    (hb : bucket ≠ []) (hb2 : '/' ∉ bucket) (hr : region ≠ []) (hr1 : '.' ∉ region)
    (hk : '\n' ∉ key) :
    ∃ m0 m3, FindStringSubmatch regexpS3UrlStyle4 4 (dialect4 scheme bucket region key) =
      [m0, region, bucket, m3, key] := by
  rw [dialect4_eq]
  unfold regexpS3UrlStyle4
  rw [find_after_scheme _ _ _ _ hs]
  simp only [notCh, List.cons_append]
  generalize (scheme ++ (':' :: '/' :: '/' :: 's' :: '3' :: '-' :: (region ++
        ('.' :: 'a' :: 'm' :: 'a' :: 'z' :: 'o' :: 'n' :: 'a' :: 'w' :: 's' ::
          '.' :: 'c' :: 'o' :: 'm' :: '/' :: (bucket ++ '/' :: key))))) = url
  obtain ⟨st, h1, h2, h3⟩ := head_keyTail url.length 3 key
    (setCap (setCap (fun _ => []) 1 region) 2 bucket) hk (by simp [setCap])
  have hy : (Regex.run url.length
      (cat [anyc, lit "amazonaws", anyc, lit "com/", .group 2 (plus (.char fun x => x != '/')),
        keyTail 3])
      ('.' :: 'a' :: 'm' :: 'a' :: 'z' :: 'o' :: 'n' :: 'a' :: 'w' :: 's' ::
          '.' :: 'c' :: 'o' :: 'm' :: '/' :: (bucket ++ '/' :: key),
        setCap (fun _ => []) 1 region)).head? = some st := by
    rw [walk_amazonaws_slash]
    exact head_group_plus _ 2 _ _ bucket _ _ st hb (notSlash_of_not_mem _ hb2) (by simp) h1
  rw [walk_path4,
    head_group_plus _ 1 _ _ region _ _ st hr (notDot_of_not_mem _ hr1) (by simp) hy]
  refine ⟨url.take (url.length - st.1.length), st.2 3, ?_⟩
  simp only [submatches_four]
  rw [h2, h3 1 (by omega), h3 2 (by omega)]
  simp [setCap]

theorem ParseS3Url_of_style1 (url m0 b m2 k : Str)
    (h1 : FindStringSubmatch regexpS3UrlStyle1 3 url = [m0, b, m2, k]) :
    ParseS3Url url = (b, k, [], none) := by
  unfold ParseS3Url
  rw [h1]
  simp [idx]

theorem ParseS3Url_of_style2 (url m0 b r m3 k : Str)
    (h1 : FindStringSubmatch regexpS3UrlStyle1 3 url = [])
    (h2 : FindStringSubmatch regexpS3UrlStyle2 4 url = [m0, b, r, m3, k]) :
    ParseS3Url url = (b, k, r, none) := by
  unfold ParseS3Url
  rw [h1, h2]
  simp [idx]

theorem ParseS3Url_of_style3 (url m0 b m2 k : Str)
    (h1 : FindStringSubmatch regexpS3UrlStyle1 3 url = [])
    (h2 : FindStringSubmatch regexpS3UrlStyle2 4 url = [])
    (h3 : FindStringSubmatch regexpS3UrlStyle3 3 url = [m0, b, m2, k]) :
    ParseS3Url url = (b, k, "us-east-1".toList, none) := by
  unfold ParseS3Url
  rw [h1, h2, h3]
  simp [idx]

theorem ParseS3Url_of_style4 (url m0 r b m3 k : Str)
    (h1 : FindStringSubmatch regexpS3UrlStyle1 3 url = [])
    (h2 : FindStringSubmatch regexpS3UrlStyle2 4 url = [])
    (h3 : FindStringSubmatch regexpS3UrlStyle3 3 url = [])
    (h4 : FindStringSubmatch regexpS3UrlStyle4 4 url = [m0, r, b, m3, k]) :
    ParseS3Url url = (b, k, r, none) := by
  unfold ParseS3Url
  rw [h1, h2, h3, h4]
  simp [idx]

/-- Where `ParseS3Url` does recover what the address encodes: for scheme `http` or
`https`, a non-empty bucket without `.` and `/`, a non-empty region without `.` and a
key without newline, it succeeds on the two addresses without region and returns that
bucket and key; on the virtual-hosted address with region it does so, and returns that
region, when the region has no `/`; on the path-style address with region it does so
when the region has no `/` and no occurrence of `s3`. -/
theorem ParseS3Url_dialects (scheme bucket region key : Str)
    (hs : scheme = "http".toList ∨ scheme = "https".toList)
    (hb : bucket ≠ []) (hb1 : '.' ∉ bucket) (hb2 : '/' ∉ bucket)
    (hr : region ≠ []) (hr1 : '.' ∉ region) (hk : '\n' ∉ key) :
    ParseS3Url (scheme ++ "://".toList ++ bucket ++ ".s3.amazonaws.com/".toList ++ key) =
      (bucket, key, [], none) ∧
    ('/' ∉ region →
      ParseS3Url (scheme ++ "://".toList ++ bucket ++ ".s3-".toList ++ region ++
          ".amazonaws.com/".toList ++ key) =
        (bucket, key, region, none)) ∧
    ParseS3Url (scheme ++ "://".toList ++ "s3.amazonaws.com/".toList ++ bucket ++ "/".toList ++
        key) =
      (bucket, key, "us-east-1".toList, none) ∧
    ('/' ∉ region → ¬ "s3".toList <:+: region →
      ParseS3Url (scheme ++ "://".toList ++ "s3-".toList ++ region ++
          ".amazonaws.com/".toList ++ bucket ++ "/".toList ++ key) =
        (bucket, key, region, none)) := by
  refine ⟨?_, ?_, ?_, ?_⟩
  · obtain ⟨m0, m2, h⟩ := style1_on_dialect1 scheme bucket key hs hb hb1 hk
    exact ParseS3Url_of_style1 _ _ _ _ _ h
  · intro hr2
    have h1 := style1_fails_dialect2 scheme bucket region key hs hb1 hb2 hr1 hr2
    obtain ⟨m0, m3, h2⟩ := style2_on_dialect2 scheme bucket region key hs hb hb1 hr hr1 hk
    exact ParseS3Url_of_style2 _ _ _ _ _ _ h1 h2
  · have h1 := style1_fails_dialect3 scheme bucket key hs
    have h2 := style2_fails_dialect3 scheme bucket key hs
    obtain ⟨m0, m2, h3⟩ := style3_on_dialect3 scheme bucket key hs hb hb2 hk
    exact ParseS3Url_of_style3 _ _ _ _ _ h1 h2 h3
  · intro hr2 hr3
    have hr3' : ¬ ['s', '3'] <:+: region := hr3
    have h1 := style1_fails_dialect4 scheme bucket region key hs hr1 hr3'
    have h2 := style2_fails_dialect4 scheme bucket region key hs hr1 hr3'
    have h3 := style3_fails_dialect4 scheme bucket region key hs hr1 hr2
    obtain ⟨m0, m3, h4⟩ := style4_on_dialect4 scheme bucket region key hs hb hb2 hr hr1 hk
    exact ParseS3Url_of_style4 _ _ _ _ _ _ h1 h2 h3 h4

/-! ### The bucket of a successful parse -/

theorem starLoop_preserves (f : MState → List MState) (i : Nat)
    (hf : ∀ st st', st' ∈ f st → st'.2 i = st.2 i) :
    ∀ (fuel : Nat) (st st' : MState), st' ∈ starLoop f fuel st → st'.2 i = st.2 i := by
  intro fuel
  induction fuel with
  | zero =>
    intro st st' h
    simp only [starLoop, List.mem_singleton] at h
    rw [h]
  | succ fuel ih =>
    intro st st' h
    simp only [starLoop, List.mem_append, List.mem_flatMap, List.mem_filter,
      List.mem_singleton] at h
    rcases h with ⟨m, ⟨hm, -⟩, h⟩ | h
    · rw [ih m st' h, hf st m hm]
    · rw [h]

/-- An expression leaves the registers of the groups it does not contain untouched. -/
theorem run_preserves (n i : Nat) :
    ∀ (r : Regex), i ∉ groups r → ∀ (st st' : MState), st' ∈ Regex.run n r st →
      st'.2 i = st.2 i := by
  intro r
  induction r with
  | empty =>
    intro _ st st' h
    simp only [run_empty, List.mem_singleton] at h
    rw [h]
  | char p =>
    intro _ st st' h
    obtain ⟨c, -, -, h2⟩ := (mem_run_char n p st st').1 h
    rw [h2]
  | bol =>
    intro _ st st' h
    obtain ⟨s, k⟩ := st
    simp only [run_bol] at h
    split at h
    · simp only [List.mem_singleton] at h
      rw [h]
    · simp at h
  | eol =>
    intro _ st st' h
    obtain ⟨s, k⟩ := st
    cases s with
    | nil =>
      simp only [run_eol_nil, List.mem_singleton] at h
      rw [h]
    | cons c cs => simp at h
  | seq a b iha ihb =>
    intro hi st st' h
    simp only [groups, List.mem_append, not_or] at hi
    simp only [run_seq, List.mem_flatMap] at h
    obtain ⟨m, hm, h⟩ := h
    rw [ihb hi.2 m st' h, iha hi.1 st m hm]
  | alt a b iha ihb =>
    intro hi st st' h
    simp only [groups, List.mem_append, not_or] at hi
    simp only [run_alt, List.mem_append] at h
    rcases h with h | h
    · exact iha hi.1 st st' h
    · exact ihb hi.2 st st' h
  | star a iha =>
    intro hi st st' h
    simp only [groups] at hi
    rw [run_star] at h
    exact starLoop_preserves _ i (iha hi) _ st st' h
  | group j a iha =>
    intro hi st st' h
    simp only [groups, List.mem_cons, not_or] at hi
    obtain ⟨m, hm, rfl⟩ := (mem_run_group n j a st st').1 h
    simp only [setCap, if_neg hi.1]
    exact iha hi.2 st m hm

/-- After `(p+)` the register of the group holds at least one character. -/
theorem cap_nonempty_group_plus (n i : Nat) (p : Char → Bool) (st st' : MState)
    (h : st' ∈ Regex.run n (.group i (plus (.char p))) st) : st'.2 i ≠ [] := by
  obtain ⟨m, hm, rfl⟩ := (mem_run_group n i _ st st').1 h
  simp only [plus, run_seq, List.mem_flatMap] at hm
  obtain ⟨m1, hm1, hm⟩ := hm
  obtain ⟨c, -, hc, -⟩ := (mem_run_char n p st m1).1 hm1
  obtain ⟨-, pre, hpre, -⟩ := (mem_run_star_char n p m1 m).1 hm
  have hlen : st.1.length - m.1.length = pre.length + 1 := by
    rw [hc, ← hpre]
    simp
    omega
  show setCap m.2 i (List.take (st.1.length - m.1.length) st.1) i ≠ []
  rw [hlen, hc]
  simp [setCap]

/-- A match of an expression in which `(p+)` is group `i`, and group `i` does not occur
after it, leaves a non-empty register `i`. -/
theorem cap_nonempty_of_mem (n i : Nat) (p : Char → Bool) (post : List Regex)
    (hpost : i ∉ groups (cat post)) :
    ∀ (pre : List Regex) (st0 st : MState),
      st ∈ Regex.run n (cat (pre ++ .group i (plus (.char p)) :: post)) st0 → st.2 i ≠ [] := by
  intro pre
  induction pre with
  | nil =>
    intro st0 st h
    simp only [List.nil_append] at h
    obtain ⟨m, hm, h⟩ := (mem_cat_cons _ _ _ _ _).1 h
    rw [run_preserves n i _ hpost m st h]
    exact cap_nonempty_group_plus n i p st0 m hm
  | cons a pre ih =>
    intro st0 st h
    simp only [List.cons_append] at h
    obtain ⟨m, -, h⟩ := (mem_cat_cons _ _ _ _ _).1 h
    exact ih m st h

theorem find_anchored_cases (rs : List Regex) (g : Nat) (s : Str) :
    FindStringSubmatch (cat (.bol :: rs)) g s = [] ∨
      ∃ st, st ∈ Regex.run s.length (cat rs) (s, fun _ => []) ∧
        FindStringSubmatch (cat (.bol :: rs)) g s = submatches g s st := by
  rw [FindStringSubmatch_anchored]
  cases h : (Regex.run s.length (cat rs) (s, fun _ => [])).head? with
  | none => exact Or.inl rfl
  | some st => exact Or.inr ⟨st, List.mem_of_mem_head? h, rfl⟩

theorem style1_bucket (url : Str)
    (h : (FindStringSubmatch regexpS3UrlStyle1 3 url).length > 0) :
    idx (FindStringSubmatch regexpS3UrlStyle1 3 url) 1 ≠ [] := by
  unfold regexpS3UrlStyle1 at h ⊢
  rcases find_anchored_cases _ 3 url with h0 | ⟨st, hst, h1⟩
  · rw [h0] at h
    simp at h
  · rw [h1, submatches_three]
    simp only [idx, List.getD_cons_succ, List.getD_cons_zero]
    exact cap_nonempty_of_mem _ 1 _ _ (by decide) [lit "http", opt (ch 's'), lit "://"] _ st hst

theorem style2_bucket (url : Str)
    (h : (FindStringSubmatch regexpS3UrlStyle2 4 url).length > 0) :
    idx (FindStringSubmatch regexpS3UrlStyle2 4 url) 1 ≠ [] := by
  unfold regexpS3UrlStyle2 at h ⊢
  rcases find_anchored_cases _ 4 url with h0 | ⟨st, hst, h1⟩
  · rw [h0] at h
    simp at h
  · rw [h1, submatches_four]
    simp only [idx, List.getD_cons_succ, List.getD_cons_zero]
    exact cap_nonempty_of_mem _ 1 _ _ (by decide) [lit "http", opt (ch 's'), lit "://"] _ st hst

theorem style3_bucket (url : Str)
    (h : (FindStringSubmatch regexpS3UrlStyle3 3 url).length > 0) :
    idx (FindStringSubmatch regexpS3UrlStyle3 3 url) 1 ≠ [] := by
  unfold regexpS3UrlStyle3 at h ⊢
  rcases find_anchored_cases _ 3 url with h0 | ⟨st, hst, h1⟩
  · rw [h0] at h
    simp at h
  · rw [h1, submatches_three]
    simp only [idx, List.getD_cons_succ, List.getD_cons_zero]
    exact cap_nonempty_of_mem _ 1 _ _ (by decide)
      [lit "http", opt (ch 's'), lit "://", lit "s3", anyc, lit "amazonaws", anyc, lit "com/"]
      _ st hst

theorem style4_bucket (url : Str)
    (h : (FindStringSubmatch regexpS3UrlStyle4 4 url).length > 0) :
    idx (FindStringSubmatch regexpS3UrlStyle4 4 url) 2 ≠ [] := by
  unfold regexpS3UrlStyle4 at h ⊢
  rcases find_anchored_cases _ 4 url with h0 | ⟨st, hst, h1⟩
  · rw [h0] at h
    simp at h
  · rw [h1, submatches_four]
    simp only [idx, List.getD_cons_succ, List.getD_cons_zero]
    exact cap_nonempty_of_mem _ 2 _ _ (by decide)
      [lit "http", opt (ch 's'), lit "://", lit "s3-", .group 1 (plus (notCh '.')), anyc,
        lit "amazonaws", anyc, lit "com/"] _ st hst

/-- C9, amended: when `ParseS3Url` succeeds the returned bucket is non-empty (the key may
be empty, as for an address that ends after the host or with `/`); when it fails,
bucket, key and region are all empty. -/
theorem ParseS3Url_result_shape (url : Str) :
    ((ParseS3Url url).2.2.2 = none → (ParseS3Url url).1 ≠ []) ∧
    ((ParseS3Url url).2.2.2 ≠ none →
      (ParseS3Url url).1 = [] ∧ (ParseS3Url url).2.1 = [] ∧ (ParseS3Url url).2.2.1 = []) := by
  unfold ParseS3Url
  simp only
  by_cases h1 : (FindStringSubmatch regexpS3UrlStyle1 3 url).length > 0
  · simp only [h1, if_true]
    exact ⟨fun _ => style1_bucket url h1, fun h => absurd rfl h⟩
  · simp only [h1, if_false]
    by_cases h2 : (FindStringSubmatch regexpS3UrlStyle2 4 url).length > 0
    · simp only [h2, if_true]
      exact ⟨fun _ => style2_bucket url h2, fun h => absurd rfl h⟩
    · simp only [h2, if_false]
      by_cases h3 : (FindStringSubmatch regexpS3UrlStyle3 3 url).length > 0
      · simp only [h3, if_true]
        exact ⟨fun _ => style3_bucket url h3, fun h => absurd rfl h⟩
      · simp only [h3, if_false]
        by_cases h4 : (FindStringSubmatch regexpS3UrlStyle4 4 url).length > 0
        · simp only [h4, if_true]
          exact ⟨fun _ => style4_bucket url h4, fun h => absurd rfl h⟩
        · simp only [h4, if_false]
          exact ⟨fun h => by simp at h, fun _ => by simp⟩

/-- C9, amended, at a successful and at a failing address. -/
theorem ParseS3Url_result_shape_witness :
    (ParseS3Url "https://bucket.s3.amazonaws.com/".toList).1 ≠ [] ∧
    ((ParseS3Url "ftp://bucket/key".toList).1 = [] ∧
      (ParseS3Url "ftp://bucket/key".toList).2.1 = [] ∧
      (ParseS3Url "ftp://bucket/key".toList).2.2.1 = []) :=
  ⟨(ParseS3Url_result_shape "https://bucket.s3.amazonaws.com/".toList).1 (by decide),
    (ParseS3Url_result_shape "ftp://bucket/key".toList).2 (by decide)⟩

/-- The path-style address with region `us-west-2`. -/
theorem ParseS3Url_dialects_witness :
    ParseS3Url ("https".toList ++ "://".toList ++ "s3-".toList ++ "us-west-2".toList ++
        ".amazonaws.com/".toList ++ "bucket".toList ++ "/".toList ++ "path/env".toList) =
      ("bucket".toList, "path/env".toList, "us-west-2".toList, none) :=
  (ParseS3Url_dialects "https".toList "bucket".toList "us-west-2".toList "path/env".toList
    (Or.inr rfl) (by decide) (by decide) (by decide) (by decide) (by decide)
    (by decide)).2.2.2 (by decide) (by decide)

/-! ## The signal listener of `execEnv` -/

theorem runEvents_append (st : Supervisor) (a b : List Event) :
    runEvents st (a ++ b) = runEvents (runEvents st a) b := by
  simp [runEvents, List.foldl_append]

theorem delivered_append (a b : List Event) : delivered (a ++ b) = delivered a ++ delivered b := by
  induction a with
  | nil => rfl
  | cons e a ih => cases e <;> simp [delivered, ih]

/-- A killed supervisor stays as it is. -/
theorem runEvents_killed (st : Supervisor) (h : st.alive = false) (evs : List Event) :
    runEvents st evs = st := by
  induction evs with
  | nil => rfl
  | cons e evs ih =>
    have : stepEvent st e = st := by simp [stepEvent, h]
    simpa [runEvents, this] using ih

/-- C10, the code at the failing input: when SIGKILL arrives for the supervisor while
the child runs, the supervisor is killed and, whatever happens afterwards, the child is
sent no signal; SIGTERM arriving after it is not forwarded either; and when a signal
was consumed by the listener before `ecmd.Run()` had set `ecmd.Process`, a SIGTERM that
arrives while the child runs is not forwarded. -/
theorem listener_never_forwards_sigkill (evs : List Event) :
    (runEvents installed (.start :: .deliver .SIGKILL :: evs)).forwarded = [] ∧
    (runEvents installed (.start :: .deliver .SIGKILL :: evs)).alive = false ∧
    (runEvents installed [.start, .deliver .SIGKILL, .listener, .deliver .SIGTERM,
      .listener]).forwarded = [] ∧
    (runEvents installed [.deliver .SIGINT, .listener, .start, .deliver .SIGTERM,
      .listener]).forwarded = [] := by
  have hk : runEvents installed (.start :: .deliver .SIGKILL :: evs) =
      stepEvent (stepEvent installed .start) (.deliver .SIGKILL) :=
    runEvents_killed (stepEvent (stepEvent installed .start) (.deliver .SIGKILL)) rfl evs
  refine ⟨by rw [hk]; rfl, by rw [hk]; rfl, by decide, by decide⟩

/-- Invariant of the forwarding machinery while the child runs and no SIGKILL
arrives. -/
theorem running_invariant (evs : List Event) (hk : Signal.SIGKILL ∉ delivered evs) :
    (runEvents running evs).alive = true ∧
    (runEvents running evs).processSet = true ∧
    (((runEvents running evs).listenerDone = false ∧ (runEvents running evs).forwarded = [] ∧
        (runEvents running evs).sigChan = (delivered evs).head?.toList) ∨
      ((runEvents running evs).listenerDone = true ∧
        (runEvents running evs).forwarded = (delivered evs).head?.toList ∧
        delivered evs ≠ [])) := by
  induction evs using List.reverseRecOn with
  | nil => simp [runEvents, running, installed, stepEvent, delivered]
  | append_singleton evs e ih =>
    rw [delivered_append] at hk
    have hk1 : Signal.SIGKILL ∉ delivered evs := fun h => hk (List.mem_append_left _ h)
    have hk2 : Signal.SIGKILL ∉ delivered [e] := fun h => hk (List.mem_append_right _ h)
    rw [runEvents_append, delivered_append]
    obtain ⟨ha, hp, h⟩ := ih hk1
    generalize runEvents running evs = st at ha hp h ⊢
    obtain ⟨al, sc, ld, ps, fw⟩ := st
    simp only at ha hp h
    subst ha hp
    cases e with
    | start =>
      rcases h with ⟨h1, h2, h3⟩ | ⟨h1, h2, h3⟩
      · subst h1 h2 h3
        simp [runEvents, stepEvent, delivered]
      · subst h1 h2
        simp [runEvents, stepEvent, delivered, h3]
    | deliver sig =>
      have hsig : sig ≠ Signal.SIGKILL := by
        rintro rfl
        exact hk2 (by simp [delivered])
      rcases h with ⟨h1, h2, h3⟩ | ⟨h1, h2, h3⟩
      · subst h1 h2 h3
        cases hd : delivered evs <;> cases sig <;>
          simp [runEvents, stepEvent, notify, delivered] at hsig ⊢
      · subst h1 h2
        cases hd : delivered evs with
        | nil => exact absurd hd h3
        | cons a l =>
          by_cases hl : sc.length < 1 <;> cases sig <;>
            simp [runEvents, stepEvent, notify, delivered, hl] at hsig ⊢
    | listener =>
      rcases h with ⟨h1, h2, h3⟩ | ⟨h1, h2, h3⟩
      · subst h1 h2 h3
        cases hd : delivered evs <;>
          simp [runEvents, stepEvent, listenerStep, delivered]
      · subst h1 h2
        cases hd : delivered evs with
        | nil => exact absurd hd h3
        | cons a l => simp [runEvents, stepEvent, listenerStep, delivered]

/-- Where the listener does what is asked: while the child runs and only SIGTERM and
SIGINT arrive, whatever the interleaving of arrivals and schedulings of the listener,
the child is sent at most one signal, and when it has been sent one it is the first
that arrived; once the listener has been scheduled after the arrivals, the child has
been sent exactly the first signal, and nothing when none arrived. -/
theorem listener_forwards_first_catchable_signal (evs : List Event)
    (hk : Signal.SIGKILL ∉ delivered evs) :
    (runEvents running evs).forwarded.length ≤ 1 ∧
    ((runEvents running evs).forwarded = [] ∨
      ∃ sig, (delivered evs).head? = some sig ∧ (runEvents running evs).forwarded = [sig]) ∧
    (runEvents running (evs ++ [Event.listener])).forwarded = (delivered evs).head?.toList := by
  have hinv := (running_invariant evs hk).2.2
  refine ⟨?_, ?_, ?_⟩
  · rcases hinv with ⟨_, h2, _⟩ | ⟨_, h2, _⟩
    · simp [h2]
    · rw [h2]; cases (delivered evs).head? <;> simp
  · rcases hinv with ⟨_, h2, _⟩ | ⟨_, h2, h3⟩
    · exact Or.inl h2
    · right
      cases hd : delivered evs with
      | nil => exact absurd hd h3
      | cons s l => exact ⟨s, by simp, by rw [h2, hd]; rfl⟩
  · have hk' : Signal.SIGKILL ∉ delivered (evs ++ [Event.listener]) := by
      rw [delivered_append]
      simpa [delivered] using hk
    have h := (running_invariant (evs ++ [Event.listener]) hk').2.2
    rw [delivered_append] at h
    simp only [delivered, List.append_nil] at h
    rcases h with ⟨h1, h2, h3⟩ | ⟨_, h2, _⟩
    · rw [runEvents_append] at h1 h3 ⊢
      obtain ⟨ha, hp, h0⟩ := running_invariant evs hk
      generalize runEvents running evs = st at *
      obtain ⟨al, sc, ld, ps, fw⟩ := st
      simp only at ha hp
      subst ha hp
      rcases h0 with ⟨g1, g2, g3⟩ | ⟨g1, g2, g3⟩
      · simp only at g1 g2 g3
        subst g1 g2 g3
        cases hd : (delivered evs).head? with
        | none => simp [runEvents, stepEvent, listenerStep, hd]
        | some a => simp [runEvents, stepEvent, listenerStep, hd] at h1
      · simp only at g1
        subst g1
        simp [runEvents, stepEvent, listenerStep] at h1
    · exact h2

/-- SIGINT arrives, then SIGTERM twice, with the listener scheduled in between; the
child is sent SIGINT only. -/
theorem listener_forwards_first_catchable_signal_witness :
    (runEvents running
        ([Event.deliver .SIGINT, Event.listener, Event.deliver .SIGTERM, Event.listener,
          Event.deliver .SIGTERM] ++ [Event.listener])).forwarded = [Signal.SIGINT] :=
  (listener_forwards_first_catchable_signal
    [Event.deliver .SIGINT, Event.listener, Event.deliver .SIGTERM, Event.listener,
      Event.deliver .SIGTERM] (by decide)).2.2

end SecureEnvironment
